import Mathlib

/-
Verification development for the BBPE tokenizer (bbpe_tokenizer.c).

Modelling conventions:
* A C string is modelled as its `List Nat` of bytes up to (excluding) the
  NUL terminator; such lists never contain 0.  Where the C code walks a
  string with `while (*p)` the model recurses on the list, stopping at an
  explicit 0 byte where the source's walk would stop.
* `int32_t` token ids are modelled as `Int` (the values involved are far
  from the 32-bit boundaries; no arithmetic in the source can overflow
  them for realistic vocabularies).
* The PCRE2 regex engine is a black box: a compiled pattern is modelled as
  a matcher function `List Nat → Nat → Option (Nat × Nat)` returning the
  (start, end) byte offsets of the first match at or after the given
  offset, or none.
* The cJSON tree is modelled by the inductive `Json` below; `cJSON_Parse`
  is a black box whose result (success or failure) is an input of the
  model of `bbpe_init`.
-/

namespace BBPE

/-- Status codes of bbpe_tokenizer.h (`BBPE_OK` is the success case of `Except`). -/
inductive Status where
  | memory
  | jsonParse
  | vocabMissing
  | regexCompile
  | tokenNotFound
  | invalidInput
  | unsupportedType
deriving DecidableEq, Repr

/-- Condition of `init_byte_mappings`: bytes 33..126, 161..172 and 174..255 map to
themselves in the byte alphabet. -/
def isPrintableByte (b : Nat) : Bool :=
  (33 ≤ b && b ≤ 126) || (161 ≤ b && b ≤ 172) || (174 ≤ b && b ≤ 255)

/-- Embedding of `byte_to_unicode` built by `init_byte_mappings`: a printable byte
maps to itself, the k-th non-printable byte (in ascending order) maps to 256+k.
The counter `n` of the source loop equals the number of non-printable bytes below `b`. -/
def byteToUnicode (b : Nat) : Nat :=
  if isPrintableByte b then b
  else 256 + (List.range b).countP (fun x => !isPrintableByte x)

/-- Embedding of the 512-entry `unicode_to_byte` table of `init_byte_mappings`:
slot `cp` holds the unique byte written into it (the mapping is injective, so at
most one loop iteration writes each slot), and 0 if no byte maps to `cp`.
Indices outside the table are never read by the source (it guards with
`cp < UNICODE_MAP_SIZE`); the model returns 0 there. -/
def unicodeToByte (cp : Nat) : Nat :=
  if cp < 512 then ((List.range 256).find? (fun b => byteToUnicode b == cp)).getD 0
  else 0

/-- Embedding of `utf8_encode` (the source writes the same byte values; the
`char` casts do not truncate for the code points below 0x200000 that can reach it). -/
def utf8Encode (cp : Nat) : List Nat :=
  if cp < 0x80 then [cp]
  else if cp < 0x800 then
    [0xC0 ||| (cp >>> 6), 0x80 ||| (cp &&& 0x3F)]
  else if cp < 0x10000 then
    [0xE0 ||| (cp >>> 12), 0x80 ||| ((cp >>> 6) &&& 0x3F), 0x80 ||| (cp &&& 0x3F)]
  else
    [0xF0 ||| (cp >>> 18), 0x80 ||| ((cp >>> 12) &&& 0x3F),
     0x80 ||| ((cp >>> 6) &&& 0x3F), 0x80 ||| (cp &&& 0x3F)]

/-- Embedding of `utf8_decode`: returns the code point and the number of bytes
consumed, or `none` where the source returns -1.  Reads past the end of the list
see the NUL terminator of the C string, i.e. byte 0 (`getD _ 0`), which fails
every continuation-byte test exactly as in the source. -/
def utf8Decode (s : List Nat) : Option (Nat × Nat) :=
  match s with
  | [] => none
  | c :: rest =>
    if c < 0x80 then some (c, 1)
    else if c &&& 0xE0 == 0xC0 then
      if rest.getD 0 0 &&& 0xC0 != 0x80 then none
      else some (((c &&& 0x1F) <<< 6) ||| (rest.getD 0 0 &&& 0x3F), 2)
    else if c &&& 0xF0 == 0xE0 then
      if rest.getD 0 0 &&& 0xC0 != 0x80 || rest.getD 1 0 &&& 0xC0 != 0x80 then none
      else some (((c &&& 0x0F) <<< 12) ||| ((rest.getD 0 0 &&& 0x3F) <<< 6) |||
                 (rest.getD 1 0 &&& 0x3F), 3)
    else if c &&& 0xF8 == 0xF0 then
      if rest.getD 0 0 &&& 0xC0 != 0x80 || rest.getD 1 0 &&& 0xC0 != 0x80 ||
         rest.getD 2 0 &&& 0xC0 != 0x80 then none
      else some (((c &&& 0x07) <<< 18) ||| ((rest.getD 0 0 &&& 0x3F) <<< 12) |||
                 ((rest.getD 1 0 &&& 0x3F) <<< 6) ||| (rest.getD 2 0 &&& 0x3F), 4)
    else none

/-- Embedding of the per-byte cache `byte_vocab_strs` built by
`precompute_byte_strings`: the UTF-8 encoding of `byte_to_unicode[b]`. -/
def byteVocabStr (b : Nat) : List Nat := utf8Encode (byteToUnicode b)

/-- Embedding of `MergeRuleItem`. -/
structure MergeRuleItem where
  right_id : Int
  new_id : Int
  priority : Int
deriving DecidableEq, Repr

/-- Matcher abstraction for a compiled PCRE2 pattern: given the subject and a
start offset, return the (start, end) offsets of a match, or none for
`PCRE2_ERROR_NOMATCH` (and for any other negative return code, on which the
source also breaks out of its loop). -/
def RegexMatcher : Type := List Nat → Nat → Option (Nat × Nat)

/-- Embedding of `PreTokenizerNode`.  The source enum also has
`PRE_TOKENIZER_NONE`, but `parse_pre_tokenizer_node` never constructs it, and a
`Split` node always carries a successfully compiled pattern. -/
inductive PreTokenizerNode where
  | byteLevel (addPrefixSpace : Bool)
  | regexSplit (matcher : RegexMatcher)

/-- Embedding of `struct BBPETokenizer` after `bbpe_init`.  The uthash
`vocab_map` is modelled by the lookup function `vocabFind`; the id-indexed
array `id_to_token` by `idToToken` (`none` = NULL slot or out of range);
`rule_rows` by `ruleRows` (empty outside `[0, vocabSize)`, as the zeroed
array slots); the `special_tokens_map` by the entry list `specials`.
`byte_to_unicode`, `unicode_to_byte` and `byte_vocab_strs` carry no
configuration and are the global functions above. -/
structure Tokenizer where
  vocabFind : List Nat → Option Int
  idToToken : Int → Option (List Nat)
  vocabSize : Int
  ruleRows : Int → List MergeRuleItem
  specials : List (List Nat × Int)
  preToks : List PreTokenizerNode

/-- Embedding of `TokenSegment`.  -/
inductive TokenSegment where
  | normal (text : List Nat)
  | special (id : Int)
deriving DecidableEq, Repr

/-- Length of the best special-token match so far (0 when none), as kept in
`best_len` of `extract_special_tokens`. -/
def bestLen : Option (List Nat × Int) → Nat
  | none => 0
  | some e => e.1.length

/-- Embedding of the inner `HASH_ITER` loop of `extract_special_tokens`: scan
all special tokens, retaining one that is a byte-wise prefix of `rest` and is
strictly longer than the best so far.  Two distinct matching specials cannot
have equal length (equal-length prefixes of the same list are equal), so the
unspecified hash iteration order does not affect the result. -/
def findBestSpecial (specials : List (List Nat × Int)) (rest : List Nat) :
    Option (List Nat × Int) :=
  specials.foldl
    (fun best e => if e.1.isPrefixOf rest && bestLen best < e.1.length then some e else best)
    none

/-- Pending-normal-prefix flush of `extract_special_tokens` (emitted only when
non-empty). -/
def flushNormal (pending : List Nat) : List TokenSegment :=
  if pending = [] then [] else [TokenSegment.normal pending]

/-- Embedding of the main loop of `extract_special_tokens`.  `pending` is the
text between `start` and `pos` of the source.  On a best match `t` at a
position `b :: rest`, the source advances `pos` by `t.length`; since a selected
match always has `t.length ≥ 1` (the strict `token_len > best_len` test starts
from 0), this equals recursing on `rest.drop (t.length - 1)`. -/
def extractSpecialLoop (sp : List (List Nat × Int)) (pending : List Nat) :
    List Nat → List TokenSegment
  | [] => flushNormal pending
  | b :: rest =>
    match findBestSpecial sp (b :: rest) with
    | some (t, id) =>
      flushNormal pending ++ [TokenSegment.special id] ++
        extractSpecialLoop sp [] (rest.drop (t.length - 1))
    | none => extractSpecialLoop sp (pending ++ [b]) rest
termination_by text => text.length
decreasing_by
  · simp only [List.length_drop, List.length_cons]; omega
  · simp

/-- Embedding of `extract_special_tokens`. -/
def extract_special_tokens (sp : List (List Nat × Int)) (text : List Nat) :
    List TokenSegment :=
  extractSpecialLoop sp [] text

/-- Byte slice `[a, b)` of a list, as the source's `memcpy(chunk, text + a, b - a)`. -/
def listSlice (l : List Nat) (a b : Nat) : List Nat := (l.drop a).take (b - a)

/-- Embedding of the regex-split matching loop of `apply_single_pre_tokenizer`
(the `PRE_TOKENIZER_REGEX_SPLIT` branch).  Returns the chunks emitted by the
loop together with the final `last_end`.  A match with `start = end` emits an
empty matched chunk and advances `offset` past `end` by one, exactly as the
source.  A matcher result violating `offset ≤ start ≤ end ≤ length` cannot be
produced by pcre2; the model breaks out of the loop on such a result so that
the recursion is total. -/
def regexSplitGo (m : RegexMatcher) (text : List Nat) (offset lastEnd : Nat) :
    List (List Nat) × Nat :=
  if hoff : offset < text.length then
    match m text offset with
    | none => ([], lastEnd)
    | some (s, e) =>
      if hok : offset ≤ s ∧ s ≤ e ∧ e ≤ text.length then
        let between := if lastEnd < s then [listSlice text lastEnd s] else []
        let newOffset := if s = e then e + 1 else e
        let tail := regexSplitGo m text newOffset e
        (between ++ [listSlice text s e] ++ tail.1, tail.2)
      else ([], lastEnd)
  else ([], lastEnd)
termination_by text.length - offset
decreasing_by
  rcases hok with ⟨h1, h2, h3⟩
  split <;> omega

/-- Embedding of the `PRE_TOKENIZER_REGEX_SPLIT` branch of
`apply_single_pre_tokenizer`: run the matching loop, emit the remaining text
after the final `last_end`, and fall back to the whole input as a single chunk
when no chunk was produced. -/
def regexSplitChunks (m : RegexMatcher) (text : List Nat) : List (List Nat) :=
  let res := regexSplitGo m text 0 0
  let chunks :=
    res.1 ++ (if res.2 < text.length then [listSlice text res.2 text.length] else [])
  if chunks = [] then [text] else chunks

/-- Embedding of `apply_single_pre_tokenizer`: `ByteLevel` yields one chunk with
an optional leading space (byte 32); `Split` runs the regex loop. -/
def apply_single_pre_tokenizer : PreTokenizerNode → List Nat → List (List Nat)
  | .byteLevel aps, text => [if aps then 32 :: text else text]
  | .regexSplit m, text => regexSplitChunks m text

/-- Embedding of `pre_tokenize`: apply each node of the chain to every current
chunk, concatenating the outputs in order; the initial state is the whole text. -/
def pre_tokenize (chain : List PreTokenizerNode) (text : List Nat) :
    List (List Nat) :=
  chain.foldl
    (fun chunks node => (chunks.map (apply_single_pre_tokenizer node)).flatten)
    [text]

/-- Embedding of the binary-search loop of `find_merge_rule`.  `lo` and `hi`
are the C `int` variables; `hi` can become -1, so both are `Int`.  On all
reachable states `lo + hi ≥ 0`, where C's truncating division agrees with
Lean's `Int` division.  An out-of-range probe index (impossible while
`0 ≤ lo ≤ hi < items.length`) terminates the search. -/
def mergeBinSearch (items : List MergeRuleItem) (right : Int) (lo hi : Int) :
    Option (Int × Int) :=
  if hlo : lo ≤ hi then
    let mid := (lo + hi) / 2
    match items.get? mid.toNat with
    | none => none
    | some it =>
      if it.right_id = right then some (it.new_id, it.priority)
      else if it.right_id < right then mergeBinSearch items right (mid + 1) hi
      else mergeBinSearch items right lo (mid - 1)
  else none
termination_by (hi + 1 - lo).toNat
decreasing_by
  · have h1 : lo ≤ (lo + hi) / 2 := by omega
    have h2 : (lo + hi) / 2 ≤ hi := by omega
    omega
  · have h1 : lo ≤ (lo + hi) / 2 := by omega
    have h2 : (lo + hi) / 2 ≤ hi := by omega
    omega

/-- Embedding of `find_merge_rule`: reject an out-of-range left id, then
binary-search the row for the right id, returning `(new_id, priority)`. -/
def find_merge_rule (tok : Tokenizer) (left right : Int) : Option (Int × Int) :=
  if left < 0 ∨ tok.vocabSize ≤ left then none
  else
    let row := tok.ruleRows left
    if row.length = 0 then none
    else mergeBinSearch row right 0 (Int.ofNat row.length - 1)

/-- One iteration of the scan of `find_best_merge` at pair index `i`: probe
the merge table for the adjacent pair and keep the new candidate exactly when
its priority is strictly smaller than the best so far (`priority <
min_priority`), which retains the leftmost position among priority ties.  The
state is `(best_idx, new_id, min_priority)`. -/
def bestMergeStep (tok : Tokenizer) (ids : List Int)
    (best : Option (Nat × Int × Int)) (i : Nat) : Option (Nat × Int × Int) :=
  match find_merge_rule tok (ids.getD i 0) (ids.getD (i + 1) 0) with
  | none => best
  | some (newId, prio) =>
    match best with
    | none => some (i, newId, prio)
    | some (bi, bn, bp) => if prio < bp then some (i, newId, prio) else some (bi, bn, bp)

/-- Embedding of the scan of `find_best_merge`: fold the per-pair step over
the adjacent-pair indices `0..n-2`. -/
def findBestMergeFold (tok : Tokenizer) (ids : List Int) : Option (Nat × Int × Int) :=
  (List.range (ids.length - 1)).foldl (bestMergeStep tok ids) none

/-- Embedding of `find_best_merge`: the best index and its `new_id`
(`-1`/undefined output modelled as `none`). -/
def find_best_merge (tok : Tokenizer) (ids : List Int) : Option (Nat × Int) :=
  (findBestMergeFold tok ids).map (fun b => (b.1, b.2.1))

/-- Embedding of the merge loop of `encode_chunk`: while more than one token
remains and a best merge exists, write `new_id` at the best index and shift the
tail down over the following slot.  `find_best_merge` only returns indices
`i < length - 1`, so the erase always shortens the list; the defensive guard
makes termination structural and is never false on reachable states. -/
def mergeLoop (tok : Tokenizer) (ids : List Int) : List Int :=
  if ids.length ≤ 1 then ids
  else
    match find_best_merge tok ids with
    | none => ids
    | some (i, newId) =>
      let next := ((ids.set i newId).eraseIdx (i + 1))
      if h : next.length < ids.length then mergeLoop tok next else ids
termination_by ids.length

/-- Embedding of the byte-expansion phase of `encode_chunk`: each byte is looked
up via its precomputed alphabet string, with the raw single-byte string as
fallback; a failed lookup is `BBPE_ERR_TOKEN_NOT_FOUND`. -/
def byteExpand (tok : Tokenizer) (chunk : List Nat) : Except Status (List Int) :=
  chunk.mapM (fun b =>
    match tok.vocabFind (byteVocabStr b) with
    | some id => Except.ok id
    | none =>
      match tok.vocabFind [b] with
      | some id => Except.ok id
      | none => Except.error Status.tokenNotFound)

/-- Embedding of `encode_chunk` as the list of ids it appends to the output:
an empty chunk contributes nothing, otherwise byte expansion followed by the
merge loop. -/
def encode_chunk (tok : Tokenizer) (chunk : List Nat) : Except Status (List Int) :=
  if chunk.length = 0 then Except.ok []
  else (byteExpand tok chunk).map (mergeLoop tok)

/-- Embedding of the segment loop of `bbpe_encode`: a special segment appends
its id; a normal segment is pre-tokenized and each chunk encoded, appending the
ids in order. -/
def bbpeEncodeCore (tok : Tokenizer) (text : List Nat) : Except Status (List Int) :=
  (extract_special_tokens tok.specials text).foldlM
    (fun acc seg =>
      match seg with
      | TokenSegment.special id => Except.ok (acc ++ [id])
      | TokenSegment.normal t =>
        (pre_tokenize tok.preToks t).foldlM
          (fun acc2 chunk => (encode_chunk tok chunk).map (fun l => acc2 ++ l)) acc)
    ([] : List Int)

/-- Embedding of the per-token-string walk of `bbpe_decode`: decode the string
code point by code point (`while (*p)` stops at the C terminator, i.e. at an
explicit 0 byte); a code point below `UNICODE_MAP_SIZE` whose
`unicode_to_byte` slot is non-zero becomes that single byte, anything else is
copied verbatim; a malformed sequence is `BBPE_ERR_INVALID_INPUT` (`none`). -/
def decodeTokenStr (s : List Nat) : Option (List Nat) :=
  match s with
  | [] => some []
  | b :: rest =>
    if b = 0 then some []
    else
      match h : utf8Decode (b :: rest) with
      | none => none
      | some (cp, len) =>
        let piece :=
          if cp < 512 && unicodeToByte cp != 0 then [unicodeToByte cp]
          else (b :: rest).take len
        (decodeTokenStr ((b :: rest).drop len)).map (fun tail => piece ++ tail)
termination_by s.length
decreasing_by
  simp only [List.length_drop, List.length_cons]
  simp only [utf8Decode] at h
  repeat' split at h
  all_goals simp at h
  all_goals omega

/-- Embedding of `bbpe_decode` on an id array: `count == 0` is
`BBPE_ERR_INVALID_INPUT`; each id must be in range with a non-NULL
`id_to_token` slot (`BBPE_ERR_TOKEN_NOT_FOUND` otherwise); the decoded bytes of
all tokens are concatenated in order.  The source's two passes (size count and
fill) perform the same checks in the same order and are fused here. -/
def bbpeDecodeCore (tok : Tokenizer) (ids : List Int) : Except Status (List Nat) :=
  if ids.isEmpty then Except.error Status.invalidInput
  else
    ids.foldlM
      (fun acc id =>
        if id < 0 ∨ tok.vocabSize ≤ id then Except.error Status.tokenNotFound
        else
          match tok.idToToken id with
          | none => Except.error Status.tokenNotFound
          | some s =>
            match decodeTokenStr s with
            | none => Except.error Status.invalidInput
            | some bytes => Except.ok (acc ++ bytes))
      ([] : List Nat)

/-- Model of the cJSON value tree (`cJSON_Parse` itself is a black box; its
output, or its failure, is an input of the `bbpe_init` model).  Strings are
byte lists, numbers carry the `valueint` view used by the loader. -/
inductive Json where
  | null
  | boolean (b : Bool)
  | num (n : Int)
  | str (s : List Nat)
  | arr (items : List Json)
  | obj (fields : List (List Nat × Json))

/-- Model of `cJSON_GetObjectItem`: the first field with the given name
(duplicate keys never occur in the documents of interest). -/
def Json.getItem : Json → List Nat → Option Json
  | .obj fields, k => (fields.find? (fun f => f.1 == k)).map (fun f => f.2)
  | _, _ => none

/-- JSON object key "model". -/
def kModel : List Nat := [109, 111, 100, 101, 108]

/-- JSON object key "vocab". -/
def kVocab : List Nat := [118, 111, 99, 97, 98]

/-- JSON object key "merges". -/
def kMerges : List Nat := [109, 101, 114, 103, 101, 115]

/-- JSON object key "pre_tokenizer". -/
def kPreTokenizer : List Nat := [112, 114, 101, 95, 116, 111, 107, 101, 110, 105, 122, 101, 114]

/-- JSON object key "type". -/
def kType : List Nat := [116, 121, 112, 101]

/-- JSON object key "Sequence" (a type value). -/
def kSequence : List Nat := [83, 101, 113, 117, 101, 110, 99, 101]

/-- JSON object key "pretokenizers". -/
def kPretokenizers : List Nat := [112, 114, 101, 116, 111, 107, 101, 110, 105, 122, 101, 114, 115]

/-- JSON type value "ByteLevel". -/
def kByteLevel : List Nat := [66, 121, 116, 101, 76, 101, 118, 101, 108]

/-- JSON object key "add_prefix_space". -/
def kAddPrefixSpace : List Nat :=
  [97, 100, 100, 95, 112, 114, 101, 102, 105, 120, 95, 115, 112, 97, 99, 101]

/-- JSON type value "Split". -/
def kSplit : List Nat := [83, 112, 108, 105, 116]

/-- JSON object key "pattern". -/
def kPattern : List Nat := [112, 97, 116, 116, 101, 114, 110]

/-- JSON object key "Regex". -/
def kRegex : List Nat := [82, 101, 103, 101, 120]

/-- JSON object key "added_tokens". -/
def kAddedTokens : List Nat := [97, 100, 100, 101, 100, 95, 116, 111, 107, 101, 110, 115]

/-- JSON object key "content". -/
def kContent : List Nat := [99, 111, 110, 116, 101, 110, 116]

/-- JSON object key "id". -/
def kId : List Nat := [105, 100]

/-- Embedding of the `model.vocab` walk of `bbpe_init`: every object member
whose value is a number becomes a vocabulary entry `(token, id)`, in document
order.  `cJSON_ArrayForEach` over a non-object iterates nothing. -/
def vocabEntriesOf : Json → List (List Nat × Int)
  | .obj fields =>
    fields.filterMap (fun f =>
      match f.2 with
      | .num n => some (f.1, n)
      | _ => none)
  | _ => []

/-- Vocabulary lookup built by `HASH_ADD_KEYPTR` / `HASH_FIND_STR` over the
entries: the first entry with the given token string. -/
def vocabFindOf (entries : List (List Nat × Int)) (s : List Nat) : Option Int :=
  (entries.find? (fun e => e.1 == s)).map (fun e => e.2)

/-- Fold of the source's `max_id` tracking (initial value -1). -/
def maxIdOf (entries : List (List Nat × Int)) : Int :=
  entries.foldl (fun m e => max m e.2) (-1)

/-- Embedding of the `id_to_token` fill of `bbpe_init`: the slot for an
in-range id holds the token of an entry carrying that id (the source fills in
unspecified `HASH_ITER` order; the choice matters only for documents that give
two tokens the same id). -/
def idToTokenOf (entries : List (List Nat × Int)) (size : Int) (i : Int) :
    Option (List Nat) :=
  if 0 ≤ i ∧ i < size then (entries.find? (fun e => e.2 == i)).map (fun e => e.1)
  else none

/-- Index of the first space (byte 32), as `strchr(combined, ' ')`. -/
def firstSpaceIdx (s : List Nat) : Option Nat :=
  s.findIdx? (fun b => b == 32)

/-- Embedding of the per-element parsing in the `model.merges` walk: a string
`"L R"` is rejected when longer than `STRING_TEMP_SIZE` (0xff) or without a
space, and split at its first space; a two-element array of strings is
rejected when the two lengths sum to more than `STRING_TEMP_SIZE`; anything
else is skipped. -/
def mergePairOf : Json → Option (List Nat × List Nat)
  | .str combined =>
    if combined.length > 255 then none
    else
      match firstSpaceIdx combined with
      | none => none
      | some i => some (combined.take i, combined.drop (i + 1))
  | .arr items =>
    match items with
    | [l, r] =>
      match l, r with
      | .str ls, .str rs =>
        if ls.length + rs.length > 255 then none else some (ls, rs)
      | _, _ => none
    | _ => none
  | _ => none

/-- One accepted merge record of the `model.merges` walk. -/
structure MergeRecord where
  left_id : Int
  right_id : Int
  new_id : Int
  priority : Int
deriving DecidableEq, Repr

/-- Embedding of the lookups that accept or silently skip one merge rule:
`L` and `R` must be in the vocabulary, the combined length must fit the
`MSTR_BUFFER` (`≥ sizeof` check, i.e. ≥ 256 is skipped), and the concatenation
`LR` must be in the vocabulary. -/
def mergeIdsOf (find : List Nat → Option Int) (item : Json) :
    Option (Int × Int × Int) :=
  match mergePairOf item with
  | none => none
  | some (ls, rs) =>
    match find ls, find rs with
    | some lid, some rid =>
      if ls.length + rs.length ≥ 256 then none
      else
        match find (ls ++ rs) with
        | some nid => some (lid, rid, nid)
        | none => none
    | _, _ => none

/-- Embedding of the `model.merges` walk: accepted rules become records whose
`priority` is the source's counter `i`, incremented only when a rule is
accepted (skipped rules leave no gap in the priorities). -/
def mergeRecordsOf (find : List Nat → Option Int) : List Json → Int → List MergeRecord
  | [], _ => []
  | item :: rest, i =>
    match mergeIdsOf find item with
    | none => mergeRecordsOf find rest i
    | some (lid, rid, nid) =>
      ⟨lid, rid, nid, i⟩ :: mergeRecordsOf find rest (i + 1)

/-- Comparator key of `compare_merge_rule_items`: sort by `right_id`.  The
model uses a stable insertion sort; `qsort` may permute equal keys
differently, which can only affect documents with duplicate (left, right)
pairs, and never the multiset of row items. -/
def ruleRowSort (items : List MergeRuleItem) : List MergeRuleItem :=
  List.insertionSort (fun a b => a.right_id ≤ b.right_id) items

/-- Embedding of the bucketing and sorting of merge records into `rule_rows`:
the row of an in-range left id collects its records in walk order and is
sorted by `right_id`; all other rows are the zeroed (empty) array slots.
Records whose left id is out of range are only half-processed by the source
(counted under a range guard but filled without one, which is undefined
behaviour on such documents); the model drops them. -/
def ruleRowsOf (records : List MergeRecord) (size : Int) (left : Int) :
    List MergeRuleItem :=
  if 0 ≤ left ∧ left < size then
    ruleRowSort ((records.filter (fun rec => rec.left_id == left)).map
      (fun rec => ⟨rec.right_id, rec.new_id, rec.priority⟩))
  else []

/-- Embedding of `parse_pre_tokenizer_node`.  `compile` is the black-box
`pcre2_compile`; `none` is a compile failure (`BBPE_ERR_REGEX_COMPILE`). -/
def parse_pre_tokenizer_node (compile : List Nat → Option RegexMatcher)
    (obj : Json) : Except Status PreTokenizerNode :=
  match obj.getItem kType with
  | some (.str t) =>
    if t = kByteLevel then
      Except.ok (PreTokenizerNode.byteLevel
        (match obj.getItem kAddPrefixSpace with
         | some (.boolean b) => b
         | _ => false))
    else if t = kSplit then
      match obj.getItem kPattern with
      | some pat =>
        match pat.getItem kRegex with
        | some (.str rx) =>
          match compile rx with
          | some m => Except.ok (PreTokenizerNode.regexSplit m)
          | none => Except.error Status.regexCompile
        | _ => Except.error Status.invalidInput
      | none => Except.error Status.invalidInput
    else Except.error Status.unsupportedType
  | _ => Except.error Status.invalidInput

/-- Embedding of the `pre_tokenizer` walk of `bbpe_init`: a `Sequence` node
parses each element of `pretokenizers` in order (a missing or non-array
`pretokenizers`, like a missing `type`, leaves the chain empty); any other
node parses as the single element of the chain. -/
def preTokChainOf (compile : List Nat → Option RegexMatcher) (root : Json) :
    Except Status (List PreTokenizerNode) :=
  match root.getItem kPreTokenizer with
  | none => Except.ok []
  | some preTok =>
    match preTok.getItem kType with
    | some (.str t) =>
      if t = kSequence then
        match preTok.getItem kPretokenizers with
        | some (.arr items) => items.mapM (parse_pre_tokenizer_node compile)
        | _ => Except.ok []
      else (parse_pre_tokenizer_node compile preTok).map (fun n => [n])
    | _ => Except.ok []

/-- Embedding of the `added_tokens` walk's per-element filter: elements with a
string `content` and a numeric `id` participate. -/
def addedEntriesOf : Json → List (List Nat × Int)
  | .arr items =>
    items.filterMap (fun item =>
      match item.getItem kContent, item.getItem kId with
      | some (.str c), some (.num n) => some (c, n)
      | _, _ => none)
  | _ => []

/-- Embedding of one `added_tokens` step: grow `vocab_size` when the id is
beyond it (new `id_to_token` and `rule_rows` slots are NULL/zeroed, which the
model's total functions already yield), then, if the id's slot is still empty,
intern the content as a special token and point the slot at it.  The source
compares `sid >= tok->vocab_size` after converting `sid` to `uint32_t`; for a
negative id this wraps around and the subsequent accesses are undefined
behaviour, so the model skips negative ids (no claim involves them). -/
def applyAddedToken (st : Int × (Int → Option (List Nat)) × List (List Nat × Int))
    (e : List Nat × Int) : Int × (Int → Option (List Nat)) × List (List Nat × Int) :=
  let size := st.1
  let i2t := st.2.1
  let sp := st.2.2
  let sid := e.2
  if sid < 0 then st
  else
    let size' := if sid ≥ size then sid + 1 else size
    match i2t sid with
    | some _ => (size', i2t, sp)
    | none =>
      (size', fun i => if i = sid then some e.1 else i2t i, sp ++ [(e.1, sid)])

/-- Embedding of `bbpe_init` after a successful `cJSON_Parse` (memory
allocation failures are not modelled): build the byte mappings (global
functions here), walk `model.vocab`, `model.merges`, `pre_tokenizer` and
`added_tokens`, and assemble the tokenizer. -/
def bbpeInitCore (compile : List Nat → Option RegexMatcher) (root : Json) :
    Except Status Tokenizer :=
  match root.getItem kModel with
  | none => Except.error Status.vocabMissing
  | some model =>
    match model.getItem kVocab with
    | none => Except.error Status.vocabMissing
    | some vocab =>
      let entries := vocabEntriesOf vocab
      let maxId := maxIdOf entries
      if maxId < 0 then Except.error Status.vocabMissing
      else
        let size := maxId + 1
        let records :=
          match model.getItem kMerges with
          | some (.arr items) => mergeRecordsOf (vocabFindOf entries) items 0
          | _ => []
        match preTokChainOf compile root with
        | Except.error e => Except.error e
        | Except.ok chain =>
          let added :=
            match root.getItem kAddedTokens with
            | some a => addedEntriesOf a
            | none => []
          let st := added.foldl applyAddedToken (size, idToTokenOf entries size, [])
          Except.ok
            { vocabFind := vocabFindOf entries
              idToToken := st.2.1
              vocabSize := st.1
              ruleRows := ruleRowsOf records size
              specials := st.2.2
              preToks := chain }

/-- Model of the public `bbpe_encode`: NULL argument pointers (the `none`
cases of the `Option` wrappers, including the output pointer) are rejected as
`BBPE_ERR_INVALID_INPUT` before anything is computed or written. -/
def bbpe_encode (tokenizer : Option Tokenizer) (text : Option (List Nat))
    (out_output : Option Unit) : Except Status (List Int) :=
  match tokenizer, text, out_output with
  | some tok, some t, some _ => bbpeEncodeCore tok t
  | _, _, _ => Except.error Status.invalidInput

/-- Model of the public `bbpe_decode`: NULL `tokenizer`, `ids` or `out_text`
(the `none` cases), like a zero `count` (the empty list), are rejected as
`BBPE_ERR_INVALID_INPUT` before any output is produced.  The `ids` pointer
plus `count` are modelled together as the id list. -/
def bbpe_decode (tokenizer : Option Tokenizer) (ids : Option (List Int))
    (out_text : Option Unit) : Except Status (List Nat) :=
  match tokenizer, ids, out_text with
  | some tok, some l, some _ => bbpeDecodeCore tok l
  | _, _, _ => Except.error Status.invalidInput

/-- Model of the public `bbpe_init`: a NULL `json_content` or `out_tokenizer`
is `BBPE_ERR_INVALID_INPUT`; then `cJSON_Parse` (a black box whose outcome is
the inner `Option`) failing is `BBPE_ERR_JSON_PARSE`; then the loader runs on
the parsed tree. -/
def bbpe_init (compile : List Nat → Option RegexMatcher)
    (json_content : Option (Option Json)) (out_tokenizer : Option Unit) :
    Except Status Tokenizer :=
  match json_content, out_tokenizer with
  | some parsed, some _ =>
    match parsed with
    | none => Except.error Status.jsonParse
    | some root => bbpeInitCore compile root
  | _, _ => Except.error Status.invalidInput

/-!  Specification-side definitions.  The definitions below are translated
from the specification's wording (not from the source) and exist to be
compared with the source embeddings above.  -/

/-- Modelled from the spec (§4.7, §4.5): a merge rule for the adjacent pair
`(left, right)` exists when the row of `left` contains an item with that
`right_id`; the lookup returns its `(new_id, priority)`. -/
def specRuleLookup (tok : Tokenizer) (left right : Int) : Option (Int × Int) :=
  if 0 ≤ left ∧ left < tok.vocabSize then
    ((tok.ruleRows left).find? (fun it => it.right_id == right)).map
      (fun it => (it.new_id, it.priority))
  else none

/-- Modelled from the spec (§4.5): position `i` carries the best merge
`(new_id, priority)` when its adjacent pair has a rule of that priority, every
pair with a rule has priority at least `p`, and every strictly earlier pair
with a rule has priority strictly greater than `p` (smallest priority, and
leftmost among the positions attaining it). -/
def IsBestMerge (tok : Tokenizer) (ids : List Int) (i : Nat) (newId p : Int) : Prop :=
  i + 1 < ids.length ∧
  specRuleLookup tok (ids.getD i 0) (ids.getD (i + 1) 0) = some (newId, p) ∧
  (∀ j, j + 1 < ids.length → ∀ n' p',
    specRuleLookup tok (ids.getD j 0) (ids.getD (j + 1) 0) = some (n', p') → p ≤ p') ∧
  (∀ j, j < i → j + 1 < ids.length → ∀ n' p',
    specRuleLookup tok (ids.getD j 0) (ids.getD (j + 1) 0) = some (n', p') → p < p')

/-- Modelled from the spec (§4.5): one merge step replaces `ids[i]` by the
rule's new id and deletes `ids[i+1]`, shifting the tail down, at a best
position. -/
inductive SpecMergeStep (tok : Tokenizer) : List Int → List Int → Prop where
  | step (ids : List Int) (i : Nat) (newId p : Int) :
      IsBestMerge tok ids i newId p →
      SpecMergeStep tok ids (ids.take i ++ newId :: ids.drop (i + 2))

/-- Reflexive-transitive closure of single spec merge steps. -/
def SpecMergesTo (tok : Tokenizer) : List Int → List Int → Prop :=
  Relation.ReflTransGen (SpecMergeStep tok)

/-- Modelled from the spec (§4.5): no adjacent pair of the list has a merge
rule (the loop's termination condition). -/
def NoMergeablePair (tok : Tokenizer) (ids : List Int) : Prop :=
  ∀ j, j + 1 < ids.length →
    specRuleLookup tok (ids.getD j 0) (ids.getD (j + 1) 0) = none

/-- Text reconstruction of a segment list: a `Normal` segment contributes its
text, a `Special` segment the token string that `f` assigns to its id. -/
def segsText (f : Int → List Nat) (segs : List TokenSegment) : List Nat :=
  (segs.map (fun s =>
    match s with
    | TokenSegment.normal t => t
    | TokenSegment.special id => f id)).flatten

/-- Alphabet image of a byte string: the concatenation of the precomputed
UTF-8 alphabet strings of its bytes. -/
def byteEncodeStr (bs : List Nat) : List Nat :=
  (bs.map byteVocabStr).flatten

/-- Decidable test for membership in the byte alphabet's image, i.e. whether
some byte maps to `cp`. -/
def cpInImage (cp : Nat) : Bool :=
  (List.range 256).any (fun b => byteToUnicode b == cp)

/-- Decidable reading of the claim hypothesis that a text's UTF-8 code points
all lie in the byte alphabet's image (false also on malformed UTF-8). -/
def textCpsInImage (s : List Nat) : Bool :=
  match s with
  | [] => true
  | b :: rest =>
    match h : utf8Decode (b :: rest) with
    | none => false
    | some (cp, len) => cpInImage cp && textCpsInImage ((b :: rest).drop len)
termination_by s.length
decreasing_by
  simp only [List.length_drop, List.length_cons]
  simp only [utf8Decode] at h
  repeat' split at h
  all_goals simp at h
  all_goals omega

/-- Sanity contract of the black-box pcre2 matcher: a reported match lies
within the subject at or after the requested offset. -/
def MatcherValid (m : RegexMatcher) : Prop :=
  ∀ s off a b, m s off = some (a, b) → off ≤ a ∧ a ≤ b ∧ b ≤ s.length

/-- A pre-tokenizer chain that never prepends the optional leading space. -/
def NoPrefixSpace (chain : List PreTokenizerNode) : Prop :=
  ∀ node ∈ chain, node ≠ PreTokenizerNode.byteLevel true

/-- Matcher sanity for every regex node of a chain. -/
def ChainMatchersValid (chain : List PreTokenizerNode) : Prop :=
  ∀ node ∈ chain, ∀ m, node = PreTokenizerNode.regexSplit m → MatcherValid m

/-- Well-formedness of a loaded tokenizer relative to an id assignment for the
byte-alphabet singleton tokens: every singleton is in the vocabulary with a
consistent reverse entry and an in-range id, and every merge rule yields an
in-range new id whose token text is the concatenation of the left and right
token texts (the spec's vocabulary-closure invariant, guaranteed by the
loader's `LR` lookup). -/
structure WellFormed (tok : Tokenizer) (byteId : Nat → Int) : Prop where
  byteFind : ∀ b, b < 256 → tok.vocabFind (byteVocabStr b) = some (byteId b)
  byteIdRange : ∀ b, b < 256 → 0 ≤ byteId b ∧ byteId b < tok.vocabSize
  byteTok : ∀ b, b < 256 → tok.idToToken (byteId b) = some (byteVocabStr b)
  ruleClosure : ∀ l : Int, ∀ it ∈ tok.ruleRows l,
    (0 ≤ it.new_id ∧ it.new_id < tok.vocabSize) ∧
    ∀ sl sr, tok.idToToken l = some sl → tok.idToToken it.right_id = some sr →
      tok.idToToken it.new_id = some (sl ++ sr)
  chainValid : ChainMatchersValid tok.preToks

/-- Pointwise representation invariant of the merge loop: each current id is
in range and its token string is the alphabet image of a byte segment of the
chunk, whose bytes are non-NUL `char` values. -/
def IdSegOk (tok : Tokenizer) (id : Int) (seg : List Nat) : Prop :=
  (0 ≤ id ∧ id < tok.vocabSize) ∧
  tok.idToToken id = some (byteEncodeStr seg) ∧
  ∀ b ∈ seg, 0 < b ∧ b < 256

/-!  Concrete instances used by the closed theorems below.  -/

/-- Vocabulary holding exactly the 256 byte-alphabet singleton tokens, the
token for byte `b` having id `b`. -/
def vocab256 : List (List Nat × Int) :=
  (List.range 256).map (fun b => (byteVocabStr b, Int.ofNat b))

/-- Tokenizer with the singleton vocabulary, no merge rules, no special tokens
and an empty pre-tokenizer chain. -/
def tok256 : Tokenizer :=
  { vocabFind := vocabFindOf vocab256
    idToToken := idToTokenOf vocab256 256
    vocabSize := 256
    ruleRows := fun _ => []
    specials := []
    preToks := [] }

/-- Variant of `tok256` whose chain is a single `ByteLevel` node with
`add_prefix_space = true`. -/
def tokPS : Tokenizer :=
  { vocabFind := vocabFindOf vocab256
    idToToken := idToTokenOf vocab256 256
    vocabSize := 256
    ruleRows := fun _ => []
    specials := []
    preToks := [PreTokenizerNode.byteLevel true] }

/-- Three-token vocabulary "a" ↦ 0, "b" ↦ 1, "ab" ↦ 2 (as byte strings). -/
def vocabAB : List (List Nat × Int) := [([97], 0), ([98], 1), ([97, 98], 2)]

/-- Tokenizer with the "a"/"b"/"ab" vocabulary and the single merge rule
(0, 1) → 2 of priority 0. -/
def tokM : Tokenizer :=
  { vocabFind := vocabFindOf vocabAB
    idToToken := idToTokenOf vocabAB 3
    vocabSize := 3
    ruleRows := fun l => if l = 0 then [⟨1, 2, 0⟩] else []
    specials := []
    preToks := [] }

/-- Special-token list with the overlapping literals "<a" ↦ 6 and "<a>" ↦ 5. -/
def spOverlap : List (List Nat × Int) := [([60, 97], 6), ([60, 97, 62], 5)]

/-- Reverse id-to-text assignment for `spOverlap`. -/
def spOverlapText (id : Int) : List Nat :=
  if id = 5 then [60, 97, 62] else if id = 6 then [60, 97] else []

/-- Tokenizer carrying `spOverlap` over the singleton vocabulary. -/
def tokSp : Tokenizer :=
  { vocabFind := vocabFindOf vocab256
    idToToken := idToTokenOf vocab256 256
    vocabSize := 256
    ruleRows := fun _ => []
    specials := spOverlap
    preToks := [] }

/-- Regex compile stub for documents without a pre-tokenizer (never consulted
by them). -/
def compileNone (pat : List Nat) : Option RegexMatcher := none

/-- Matcher that reports the first byte-32 position at or after the offset as
a one-byte match (a valid instance of the matcher contract). -/
def mSpace : RegexMatcher := fun s off =>
  match (List.range s.length).find? (fun i => off ≤ i && s.getD i 0 == 32) with
  | some i => some (i, i + 1)
  | none => none

/-- Matcher that never matches. -/
def mNever : RegexMatcher := fun _ _ => none

/-- JSON vocabulary object for "a" ↦ 0, "b" ↦ 1, "ab" ↦ 2. -/
def vocabJsonAB : Json :=
  Json.obj [([97], Json.num 0), ([98], Json.num 1), ([97, 98], Json.num 2)]

/-- JSON document with the `vocabJsonAB` vocabulary and the merges list
["a b", "a b"] containing the same pair twice. -/
def docDup : Json :=
  Json.obj [(kModel, Json.obj
    [(kVocab, vocabJsonAB),
     (kMerges, Json.arr [Json.str [97, 32, 98], Json.str [97, 32, 98]])])]

/-- JSON document with the `vocabJsonAB` vocabulary and the single merge
"a b". -/
def docAB : Json :=
  Json.obj [(kModel, Json.obj
    [(kVocab, vocabJsonAB),
     (kMerges, Json.arr [Json.str [97, 32, 98]])])]

/-- JSON document inserting the merge "a c" (unknown right token) into the
merges of `docAB`. -/
def docABBadMerge : Json :=
  Json.obj [(kModel, Json.obj
    [(kVocab, vocabJsonAB),
     (kMerges, Json.arr [Json.str [97, 32, 99], Json.str [97, 32, 98]])])]

/-- String-form merge rule of 256 bytes ("a", a space and 254 times "b"):
longer than `STRING_TEMP_SIZE`, hence silently skipped by the loader although
every referenced token would bear on the vocabulary below. -/
def oversizedMerge : Json :=
  Json.str (97 :: 32 :: List.replicate 254 98)

/-- Vocabulary object for the oversized-merge document: "a", the 254-byte
"b…b" and their 255-byte concatenation all exist with ids 0, 1, 2. -/
def vocabJsonLong : Json :=
  Json.obj [([97], Json.num 0), (List.replicate 254 98, Json.num 1),
    (97 :: List.replicate 254 98, Json.num 2)]

/-- JSON document whose merges list is exactly the oversized rule, over
`vocabJsonLong` (all three of the rule's tokens exist in the vocabulary). -/
def docLong : Json :=
  Json.obj [(kModel, Json.obj
    [(kVocab, vocabJsonLong),
     (kMerges, Json.arr [oversizedMerge])])]

/-- JSON document identical to `docLong` but without the oversized rule. -/
def docLongNone : Json :=
  Json.obj [(kModel, Json.obj
    [(kVocab, vocabJsonLong),
     (kMerges, Json.arr [])])]

/-- Model object of `docAB`. -/
def modelJsonAB : Json :=
  Json.obj [(kVocab, vocabJsonAB), (kMerges, Json.arr [Json.str [97, 32, 98]])]

/-- Tokenizer that `bbpeInitCore` builds from `docAB` (definitionally equal to
the loader's output). -/
def tokAB : Tokenizer :=
  { vocabFind := vocabFindOf (vocabEntriesOf vocabJsonAB)
    idToToken := idToTokenOf (vocabEntriesOf vocabJsonAB) 3
    vocabSize := 3
    ruleRows := ruleRowsOf [⟨0, 1, 2, 0⟩] 3
    specials := []
    preToks := [] }

/-!  Theorems.  -/

/-- C8: encoding the empty string succeeds with an empty id array, and
decoding an id array of count 0 is rejected as `BBPE_ERR_INVALID_INPUT`. -/
theorem C8_empty_encode_empty_decode (tok : Tokenizer) :
    bbpe_encode (some tok) (some []) (some ()) = Except.ok [] ∧
    bbpe_decode (some tok) (some []) (some ()) = Except.error Status.invalidInput := by
  constructor
  · show bbpeEncodeCore tok [] = Except.ok []
    simp only [bbpeEncodeCore, extract_special_tokens]
    rw [extractSpecialLoop]
    simp [flushNormal]
    rfl
  · rfl

/-- C10: each public operation rejects NULL pointer arguments (the `none`
cases of the model) up front with `BBPE_ERR_INVALID_INPUT`: `bbpe_init` when
`json_content` or `out_tokenizer` is NULL, `bbpe_encode` when `tokenizer`,
`text` or `out_output` is NULL, `bbpe_decode` when `tokenizer`, `ids` or
`out_text` is NULL; the models being pure, nothing is written in any of these
cases. -/
theorem C10_null_arguments_rejected
    (compile : List Nat → Option RegexMatcher)
    (jc : Option (Option Json)) (ot : Option Unit)
    (tk : Option Tokenizer) (tx : Option (List Nat)) (oo : Option Unit)
    (tk2 : Option Tokenizer) (ids : Option (List Int)) (otx : Option Unit)
    (h1 : jc = none ∨ ot = none)
    (h2 : tk = none ∨ tx = none ∨ oo = none)
    (h3 : tk2 = none ∨ ids = none ∨ otx = none) :
    bbpe_init compile jc ot = Except.error Status.invalidInput ∧
    bbpe_encode tk tx oo = Except.error Status.invalidInput ∧
    bbpe_decode tk2 ids otx = Except.error Status.invalidInput := by
  refine ⟨?_, ?_, ?_⟩
  · rcases h1 with h | h
    · subst h; rfl
    · subst h; cases jc <;> rfl
  · rcases h2 with h | h | h
    · subst h; rfl
    · subst h; cases tk <;> rfl
    · subst h; cases tk <;> cases tx <;> rfl
  · rcases h3 with h | h | h
    · subst h; rfl
    · subst h; cases tk2 <;> rfl
    · subst h; cases tk2 <;> cases ids <;> rfl

/-- Witness for C10 at concrete NULL arguments. -/
theorem C10_null_arguments_rejected_witness :
    bbpe_init compileNone none (some ()) = Except.error Status.invalidInput ∧
    bbpe_encode (some tok256) none (some ()) = Except.error Status.invalidInput ∧
    bbpe_decode (some tok256) (some [0]) none = Except.error Status.invalidInput :=
  C10_null_arguments_rejected compileNone none (some ()) (some tok256) none (some ())
    (some tok256) (some [0]) none (Or.inl rfl) (Or.inr (Or.inl rfl))
    (Or.inr (Or.inr rfl))

/-- A merge element on which `mergeIdsOf` fails contributes no record and does
not advance the priority counter, so the walk behaves as if the element were
absent. -/
theorem mergeRecordsOf_skip (find : List Nat → Option Int) (l1 l2 : List Json)
    (bad : Json) (i : Int) (hbad : mergeIdsOf find bad = none) :
    mergeRecordsOf find (l1 ++ bad :: l2) i = mergeRecordsOf find (l1 ++ l2) i := by
  induction l1 generalizing i with
  | nil => simp [mergeRecordsOf, hbad]
  | cons x xs ih =>
    cases hx : mergeIdsOf find x <;> simp [mergeRecordsOf, hx, ih]

/-- The two loaders agree field by field when the documents agree outside the
merges list and the merge records agree. -/
theorem bbpeInitCore_congr (compile : List Nat → Option RegexMatcher)
    (root root' model model' vocab : Json)
    (itemsA itemsB : List Json)
    (hm : root.getItem kModel = some model)
    (hm' : root'.getItem kModel = some model')
    (hv : model.getItem kVocab = some vocab)
    (hv' : model'.getItem kVocab = some vocab)
    (hx : model.getItem kMerges = some (Json.arr itemsA))
    (hx' : model'.getItem kMerges = some (Json.arr itemsB))
    (hrec : mergeRecordsOf (vocabFindOf (vocabEntriesOf vocab)) itemsA 0 =
            mergeRecordsOf (vocabFindOf (vocabEntriesOf vocab)) itemsB 0)
    (hpre : root.getItem kPreTokenizer = root'.getItem kPreTokenizer)
    (hadd : root.getItem kAddedTokens = root'.getItem kAddedTokens) :
    bbpeInitCore compile root = bbpeInitCore compile root' := by
  have hchain : preTokChainOf compile root = preTokChainOf compile root' := by
    rw [preTokChainOf, preTokChainOf, hpre]
  simp only [bbpeInitCore, hm, hm', hv, hv', hx, hx', hrec, hchain, hadd]

/-- C7: a merge rule whose left token, right token, or left+right
concatenation is absent from the vocabulary map is silently dropped: the
loader's outcome on a document containing such a rule — success or failure,
and the whole tokenizer it builds, hence all subsequent encoding — is exactly
the outcome on the same document without that rule. -/
theorem C7_unknown_merge_dropped
    (compile : List Nat → Option RegexMatcher)
    (root root' model model' vocab : Json)
    (l1 l2 : List Json) (bad : Json) (ls rs : List Nat)
    (hm : root.getItem kModel = some model)
    (hm' : root'.getItem kModel = some model')
    (hv : model.getItem kVocab = some vocab)
    (hv' : model'.getItem kVocab = some vocab)
    (hx : model.getItem kMerges = some (Json.arr (l1 ++ bad :: l2)))
    (hx' : model'.getItem kMerges = some (Json.arr (l1 ++ l2)))
    (hpre : root.getItem kPreTokenizer = root'.getItem kPreTokenizer)
    (hadd : root.getItem kAddedTokens = root'.getItem kAddedTokens)
    (hpair : mergePairOf bad = some (ls, rs))
    (hmiss : vocabFindOf (vocabEntriesOf vocab) ls = none ∨
             vocabFindOf (vocabEntriesOf vocab) rs = none ∨
             vocabFindOf (vocabEntriesOf vocab) (ls ++ rs) = none) :
    bbpeInitCore compile root = bbpeInitCore compile root' := by
  have hbad : mergeIdsOf (vocabFindOf (vocabEntriesOf vocab)) bad = none := by
    rcases hmiss with h | h | h
    · simp [mergeIdsOf, hpair, h]
    · simp only [mergeIdsOf, hpair]
      cases vocabFindOf (vocabEntriesOf vocab) ls <;> simp [h]
    · simp only [mergeIdsOf, hpair]
      cases vocabFindOf (vocabEntriesOf vocab) ls <;>
        cases vocabFindOf (vocabEntriesOf vocab) rs <;> simp <;> split <;> simp_all
  exact bbpeInitCore_congr compile root root' model model' vocab _ _ hm hm' hv hv'
    hx hx' (mergeRecordsOf_skip _ l1 l2 bad 0 hbad) hpre hadd

/-- Witness for C7: the document with the merge "a c" (unknown right token)
loads to exactly the tokenizer of the document without it, and both load
successfully. -/
theorem C7_unknown_merge_dropped_witness :
    bbpeInitCore compileNone docABBadMerge = bbpeInitCore compileNone docAB ∧
    (bbpeInitCore compileNone docAB).isOk = true :=
  ⟨C7_unknown_merge_dropped compileNone docABBadMerge docAB
      (Json.obj [(kVocab, vocabJsonAB),
        (kMerges, Json.arr [Json.str [97, 32, 99], Json.str [97, 32, 98]])])
      modelJsonAB vocabJsonAB
      [] [Json.str [97, 32, 98]] (Json.str [97, 32, 99]) [97] [99]
      rfl rfl rfl rfl rfl rfl rfl rfl (by decide)
      (Or.inr (Or.inl (by decide))),
    by decide⟩

/-- C9: a string-form merge rule longer than `STRING_TEMP_SIZE` (255) bytes,
like an array-form rule whose two token texts together exceed 255 bytes, is
silently skipped even when all three tokens exist: the loader's outcome on a
document containing such a rule is exactly the outcome on the same document
without it. -/
theorem C9_oversized_merge_skipped
    (compile : List Nat → Option RegexMatcher)
    (root root' model model' vocab : Json)
    (l1 l2 : List Json) (bad : Json)
    (hm : root.getItem kModel = some model)
    (hm' : root'.getItem kModel = some model')
    (hv : model.getItem kVocab = some vocab)
    (hv' : model'.getItem kVocab = some vocab)
    (hx : model.getItem kMerges = some (Json.arr (l1 ++ bad :: l2)))
    (hx' : model'.getItem kMerges = some (Json.arr (l1 ++ l2)))
    (hpre : root.getItem kPreTokenizer = root'.getItem kPreTokenizer)
    (hadd : root.getItem kAddedTokens = root'.getItem kAddedTokens)
    (hbig : (∃ c, bad = Json.str c ∧ 255 < c.length) ∨
            (∃ ls rs, bad = Json.arr [Json.str ls, Json.str rs] ∧
              255 < ls.length + rs.length)) :
    bbpeInitCore compile root = bbpeInitCore compile root' := by
  have hbad : mergeIdsOf (vocabFindOf (vocabEntriesOf vocab)) bad = none := by
    rcases hbig with ⟨c, hc, hlen⟩ | ⟨ls, rs, hc, hlen⟩ <;> subst hc <;>
      simp [mergeIdsOf, mergePairOf, hlen]
  exact bbpeInitCore_congr compile root root' model model' vocab _ _ hm hm' hv hv'
    hx hx' (mergeRecordsOf_skip _ l1 l2 bad 0 hbad) hpre hadd

set_option maxRecDepth 20000 in
/-- Witness for C9: the 256-byte rule "a b…b" is dropped although "a", "b…b"
and "ab…b" are all in the vocabulary, and the document loads. -/
theorem C9_oversized_merge_skipped_witness :
    bbpeInitCore compileNone docLong = bbpeInitCore compileNone docLongNone ∧
    (bbpeInitCore compileNone docLongNone).isOk = true ∧
    vocabFindOf (vocabEntriesOf vocabJsonLong) [97] = some 0 ∧
    vocabFindOf (vocabEntriesOf vocabJsonLong) (List.replicate 254 98) = some 1 ∧
    vocabFindOf (vocabEntriesOf vocabJsonLong) (97 :: List.replicate 254 98) = some 2 :=
  ⟨C9_oversized_merge_skipped compileNone docLong docLongNone
      (Json.obj [(kVocab, vocabJsonLong), (kMerges, Json.arr [oversizedMerge])])
      (Json.obj [(kVocab, vocabJsonLong), (kMerges, Json.arr [])])
      vocabJsonLong [] [] oversizedMerge
      rfl rfl rfl rfl rfl rfl rfl rfl
      (Or.inl ⟨97 :: 32 :: List.replicate 254 98, rfl, by simp⟩),
    by decide, by decide, by decide, by decide⟩

/-- C6 counterexample: the document `docDup`, whose merges list contains the
pair ("a", "b") twice, loads successfully, and the resulting row for left id 0
holds two items with the same `right_id` 1 — the row is not strictly
ascending, refuting the claim for lists with duplicate pairs. -/
theorem C6_counterexample_duplicate_pair :
    (bbpeInitCore compileNone docDup).isOk = true ∧
    ((bbpeInitCore compileNone docDup).toOption.map
      (fun tok => tok.ruleRows 0)).getD [] = [⟨1, 2, 0⟩, ⟨1, 2, 1⟩] ∧
    ¬ List.Pairwise (fun a b => a.right_id < b.right_id)
        ([⟨1, 2, 0⟩, ⟨1, 2, 1⟩] : List MergeRuleItem) := by
  refine ⟨by decide, by decide, ?_⟩
  intro h
  have := List.rel_of_pairwise_cons h (List.mem_singleton.mpr rfl)
  simp at this

/-- The sorting pass over a merge row leaves it weakly sorted by `right_id`. -/
theorem ruleRowSort_sorted (items : List MergeRuleItem) :
    List.Pairwise (fun a b => a.right_id ≤ b.right_id) (ruleRowSort items) := by
  haveI : IsTotal MergeRuleItem (fun a b => a.right_id ≤ b.right_id) :=
    ⟨fun a b => le_total _ _⟩
  haveI : IsTrans MergeRuleItem (fun a b => a.right_id ≤ b.right_id) :=
    ⟨fun _ _ _ hab hbc => le_trans hab hbc⟩
  exact List.sorted_insertionSort _ items

/-- With pairwise-distinct `right_id` keys the sorted row is strictly
ascending. -/
theorem ruleRowSort_strict (items : List MergeRuleItem)
    (hnd : (items.map (fun it => it.right_id)).Nodup) :
    List.Pairwise (fun a b => a.right_id < b.right_id) (ruleRowSort items) := by
  have hperm : List.Perm ((ruleRowSort items).map (fun it => it.right_id))
      (items.map (fun it => it.right_id)) :=
    (List.perm_insertionSort _ items).map _
  have hnd' : ((ruleRowSort items).map (fun it => it.right_id)).Nodup :=
    (hperm.nodup_iff).mpr hnd
  have hne : List.Pairwise (fun a b : MergeRuleItem => a.right_id ≠ b.right_id)
      (ruleRowSort items) := List.pairwise_map.mp hnd'
  exact ((ruleRowSort_sorted items).and hne).imp
    (fun hab => lt_of_le_of_ne hab.1 hab.2)

/-- Shape of the merge table built by a successful `bbpeInitCore`. -/
theorem bbpeInitCore_ruleRows (compile : List Nat → Option RegexMatcher)
    (root model vocab : Json) (tok : Tokenizer)
    (hm : root.getItem kModel = some model)
    (hv : model.getItem kVocab = some vocab)
    (hok : bbpeInitCore compile root = Except.ok tok) :
    tok.ruleRows = ruleRowsOf
      (match model.getItem kMerges with
       | some (Json.arr items) => mergeRecordsOf (vocabFindOf (vocabEntriesOf vocab)) items 0
       | _ => [])
      (maxIdOf (vocabEntriesOf vocab) + 1) := by
  unfold bbpeInitCore at hok
  simp only [hm, hv] at hok
  split at hok
  · exact absurd hok (by simp)
  · split at hok
    · exact absurd hok (by simp)
    · cases hok
      rfl

/-- C6 amended: after a successful `bbpe_init` every merge row is weakly
sorted by `right_id`; when the accepted merge records contain no duplicate
(left, right) pair — in particular whenever the JSON merges list repeats no
pair — the rows are strictly ascending, hence have unique `right_id` keys. -/
theorem C6_merge_rows_sorted (compile : List Nat → Option RegexMatcher)
    (root model vocab : Json) (tok : Tokenizer) (records : List MergeRecord)
    (hm : root.getItem kModel = some model)
    (hv : model.getItem kVocab = some vocab)
    (hrec : records =
      (match model.getItem kMerges with
       | some (Json.arr items) => mergeRecordsOf (vocabFindOf (vocabEntriesOf vocab)) items 0
       | _ => []))
    (hok : bbpeInitCore compile root = Except.ok tok) (left : Int) :
    List.Pairwise (fun a b => a.right_id ≤ b.right_id) (tok.ruleRows left) ∧
    ((records.map (fun r => (r.left_id, r.right_id))).Nodup →
      List.Pairwise (fun a b => a.right_id < b.right_id) (tok.ruleRows left)) := by
  have hrows := bbpeInitCore_ruleRows compile root model vocab tok hm hv hok
  rw [← hrec] at hrows
  rw [hrows]
  unfold ruleRowsOf
  split
  · constructor
    · exact ruleRowSort_sorted _
    · intro hnd
      apply ruleRowSort_strict
      have hsub : List.Sublist
          ((records.filter (fun rec => rec.left_id == left)).map
            (fun r => (r.left_id, r.right_id)))
          (records.map (fun r => (r.left_id, r.right_id))) :=
        (List.filter_sublist records).map _
      have hndf : ((records.filter (fun rec => rec.left_id == left)).map
          (fun r => (r.left_id, r.right_id))).Nodup := hnd.sublist hsub
      have hpairs : List.Pairwise
          (fun r s : MergeRecord => (r.left_id, r.right_id) ≠ (s.left_id, s.right_id))
          (records.filter (fun rec => rec.left_id == left)) :=
        List.pairwise_map.mp hndf
      have hrts : List.Pairwise (fun r s : MergeRecord => r.right_id ≠ s.right_id)
          (records.filter (fun rec => rec.left_id == left)) := by
        refine List.Pairwise.imp_of_mem ?_ hpairs
        intro r s hr hs hne
        have hrl : r.left_id = left := by
          simpa using (List.mem_filter.mp hr).2
        have hsl : s.left_id = left := by
          simpa using (List.mem_filter.mp hs).2
        intro heq
        exact hne (by rw [hrl, hsl, heq])
      rw [List.map_map]
      exact List.pairwise_map.mpr (hrts.imp (fun h => h))
  · exact ⟨List.Pairwise.nil, fun _ => List.Pairwise.nil⟩

/-- Witness for the amended C6 at the document `docAB` with its single merge
record: the row of left id 0 is strictly ascending. -/
theorem C6_merge_rows_sorted_witness :
    (([⟨0, 1, 2, 0⟩] : List MergeRecord).map (fun r => (r.left_id, r.right_id))).Nodup ∧
    List.Pairwise (fun a b => a.right_id < b.right_id) (tokAB.ruleRows 0) :=
  ⟨by decide,
    (C6_merge_rows_sorted compileNone docAB modelJsonAB vocabJsonAB tokAB
      [⟨0, 1, 2, 0⟩] rfl rfl rfl rfl 0).2 (by decide)⟩

/-- Adjacent byte slices concatenate. -/
theorem listSlice_append (l : List Nat) (a b c : Nat) (hab : a ≤ b) (hbc : b ≤ c) :
    listSlice l a b ++ listSlice l b c = listSlice l a c := by
  unfold listSlice
  have hsum : c - a = (b - a) + (c - b) := by omega
  rw [hsum, List.take_add, List.drop_drop]
  have hba : a + (b - a) = b := by omega
  rw [hba]

/-- A slice is empty at equal endpoints. -/
theorem listSlice_self (l : List Nat) (a : Nat) : listSlice l a a = [] := by
  simp [listSlice]

/-- The whole-list slice. -/
theorem listSlice_all (l : List Nat) : listSlice l 0 l.length = l := by
  simp [listSlice]

/-- Invariant of the regex-split matching loop: the emitted chunks
concatenate exactly to the slice between the incoming `last_end` and the final
`last_end`, which only moves forward and stays within the text. -/
theorem regexSplitGo_flatten (m : RegexMatcher) (text : List Nat)
    (offset lastEnd : Nat) (h1 : lastEnd ≤ offset) (h2 : lastEnd ≤ text.length) :
    (regexSplitGo m text offset lastEnd).1.flatten =
      listSlice text lastEnd (regexSplitGo m text offset lastEnd).2 ∧
    lastEnd ≤ (regexSplitGo m text offset lastEnd).2 ∧
    (regexSplitGo m text offset lastEnd).2 ≤ text.length := by
  induction offset, lastEnd using regexSplitGo.induct m text with
  | case1 offset lastEnd hoff hm =>
    rw [regexSplitGo]
    simp_all [listSlice_self]
  | case2 offset lastEnd hoff s e hm hok nOff ih =>
    rcases hok with ⟨hos, hse, hel⟩
    have hle : lastEnd ≤ s := le_trans h1 hos
    have ihres := ih (by show e ≤ if s = e then e + 1 else e; split <;> omega) hel
    rw [regexSplitGo]
    simp only [hoff, reduceDIte, hm, hos, hse, hel, and_self, and_true, true_and]
    rcases ihres with ⟨ihflat, ihlo, ihhi⟩
    have hnoff : nOff = if s = e then e + 1 else e := rfl
    rw [← hnoff]
    refine ⟨?_, le_trans (le_trans hle hse) ihlo, ihhi⟩
    simp only [List.flatten_append, List.flatten_cons, List.flatten_nil, List.append_nil]
    rw [ihflat]
    split
    · simp only [List.flatten_cons, List.flatten_nil, List.append_nil, List.append_assoc]
      rw [listSlice_append text s e _ hse ihlo]
      exact listSlice_append text lastEnd s _ hle (le_trans hse ihlo)
    · have : lastEnd = s := by omega
      subst this
      simp only [List.flatten_nil, List.nil_append]
      exact listSlice_append text lastEnd e _ hse ihlo
  | case3 offset lastEnd hoff s e hm hok =>
    rw [regexSplitGo]
    simp only [dif_pos hoff, hm]
    rw [dif_neg hok]
    simp [listSlice_self, h2]
  | case4 offset lastEnd hoff =>
    rw [regexSplitGo]
    rw [dif_neg hoff]
    simp [listSlice_self, h2]

/-- The chunks of a regex split concatenate exactly to the input. -/
theorem regexSplitChunks_flatten (m : RegexMatcher) (text : List Nat) :
    (regexSplitChunks m text).flatten = text := by
  have hspec := regexSplitGo_flatten m text 0 0 (le_refl 0) (Nat.zero_le _)
  rcases hspec with ⟨hflat, hlo, hhi⟩
  simp only [regexSplitChunks]
  by_cases hfin : (regexSplitGo m text 0 0).2 < text.length
  · rw [if_pos hfin]
    split
    · rename_i hemp
      exact absurd hemp (by simp)
    · rw [List.flatten_append, hflat, List.flatten_cons, List.flatten_nil,
        List.append_nil,
        listSlice_append text 0 _ text.length (Nat.zero_le _) (le_of_lt hfin)]
      exact listSlice_all text
  · rw [if_neg hfin]
    have heq : (regexSplitGo m text 0 0).2 = text.length := by omega
    split
    · simp
    · rw [List.append_nil, hflat, heq]
      exact listSlice_all text

/-- C5: for a regex-split pre-tokenizer node the byte concatenation of the
emitted chunks (between-match and matched substrings, in textual order)
equals the input exactly, and a pattern that never matches yields the original
input as the single chunk.  The matcher contract `MatcherValid` is the sanity
guarantee of the black-box pcre2 engine; empty matches advance the scan
position, which is what makes the model's loop well-founded. -/
theorem C5_regex_split_preserves_text (m : RegexMatcher) (text : List Nat)
    (hm : MatcherValid m) :
    (regexSplitChunks m text).flatten = text ∧
    (m text 0 = none → regexSplitChunks m text = [text]) := by
  constructor
  · exact regexSplitChunks_flatten m text
  · intro hnone
    simp only [regexSplitChunks]
    by_cases hlen : 0 < text.length
    · rw [regexSplitGo]
      simp only [hlen, reduceDIte, hnone]
      simp [hlen, listSlice_all]
    · have htext : text = [] := List.length_eq_zero.mp (by omega)
      subst htext
      rw [regexSplitGo]
      simp

/-- Witness for C5: the one-byte-space matcher is a valid matcher and the
chunks of "a b" concatenate to "a b". -/
theorem C5_regex_split_preserves_text_witness :
    MatcherValid mSpace ∧
    (regexSplitChunks mSpace [97, 32, 98]).flatten = [97, 32, 98] := by
  have hvalid : MatcherValid mSpace := by
    intro s off a b h
    unfold mSpace at h
    cases hfind : (List.range s.length).find? (fun i => off ≤ i && s.getD i 0 == 32) with
    | none => rw [hfind] at h; exact absurd h (by simp)
    | some i =>
      rw [hfind] at h
      have hmem := List.mem_of_find?_eq_some hfind
      have hpred := List.find?_some hfind
      simp only [List.mem_range] at hmem
      simp only [Bool.and_eq_true, decide_eq_true_eq] at hpred
      cases h
      exact ⟨hpred.1, Nat.le_succ _, hmem⟩
  exact ⟨hvalid, (C5_regex_split_preserves_text mSpace [97, 32, 98] hvalid).1⟩

/-- A some-result of the special-token scan is an entry of the map, is a
byte-wise prefix of the scanned suffix, and is non-empty (the strict
`token_len > best_len` test starts from 0); or it was already the incoming
best. -/
theorem findBestSpecialAux_some (rest : List Nat) (sp : List (List Nat × Int)) :
    ∀ (acc : Option (List Nat × Int)) (e : List Nat × Int),
      sp.foldl (fun best x =>
        if x.1.isPrefixOf rest && bestLen best < x.1.length then some x else best) acc
        = some e →
      acc = some e ∨
        (e ∈ sp ∧ e.1.isPrefixOf rest = true ∧ bestLen acc < e.1.length) := by
  induction sp with
  | nil =>
    intro acc e h
    simp only [List.foldl_nil] at h
    exact Or.inl h
  | cons x xs ih =>
    intro acc e h
    simp only [List.foldl_cons] at h
    by_cases hc : (x.1.isPrefixOf rest && decide (bestLen acc < x.1.length)) = true
    · rw [if_pos hc] at h
      simp only [Bool.and_eq_true, decide_eq_true_eq] at hc
      rcases ih (some x) e h with heq | ⟨hmem, hpre, hlt⟩
      · cases heq
        exact Or.inr ⟨List.mem_cons_self x xs, hc.1, hc.2⟩
      · exact Or.inr ⟨List.mem_cons_of_mem x hmem, hpre,
          lt_trans hc.2 (by simpa [bestLen] using hlt)⟩
    · rw [if_neg hc] at h
      rcases ih acc e h with heq | ⟨hmem, hpre, hlt⟩
      · exact Or.inl heq
      · exact Or.inr ⟨List.mem_cons_of_mem x hmem, hpre, hlt⟩

/-- Any matching special token is at most as long as the best the scan
reports, and the best length never decreases. -/
theorem findBestSpecialAux_ge (rest : List Nat) (sp : List (List Nat × Int)) :
    ∀ (acc : Option (List Nat × Int)),
      (∀ e ∈ sp, e.1.isPrefixOf rest = true →
        e.1.length ≤ bestLen (sp.foldl (fun best x =>
          if x.1.isPrefixOf rest && bestLen best < x.1.length then some x else best) acc)) ∧
      bestLen acc ≤ bestLen (sp.foldl (fun best x =>
        if x.1.isPrefixOf rest && bestLen best < x.1.length then some x else best) acc) := by
  induction sp with
  | nil =>
    intro acc
    simp
  | cons x xs ih =>
    intro acc
    simp only [List.foldl_cons]
    by_cases hc : (x.1.isPrefixOf rest && decide (bestLen acc < x.1.length)) = true
    · rw [if_pos hc]
      simp only [Bool.and_eq_true, decide_eq_true_eq] at hc
      refine ⟨?_, le_trans (le_of_lt hc.2) (by simpa [bestLen] using (ih (some x)).2)⟩
      intro e he hpre
      rcases List.mem_cons.mp he with heq | hmem
      · subst heq
        simpa [bestLen] using (ih (some e)).2
      · exact (ih (some x)).1 e hmem hpre
    · rw [if_neg hc]
      refine ⟨?_, (ih acc).2⟩
      intro e he hpre
      rcases List.mem_cons.mp he with heq | hmem
      · subst heq
        have : ¬ bestLen acc < e.1.length := by
          intro hlt
          exact hc (by simp [hpre, hlt])
        exact le_trans (le_of_not_lt this) (ih acc).2
      · exact (ih acc).1 e hmem hpre

/-- When no special token is a non-empty prefix of the suffix, the scan
reports no match. -/
theorem findBestSpecial_none (sp : List (List Nat × Int)) (rest : List Nat)
    (h : ∀ e ∈ sp, ¬(e.1.isPrefixOf rest = true ∧ 0 < e.1.length)) :
    findBestSpecial sp rest = none := by
  unfold findBestSpecial
  induction sp with
  | nil => rfl
  | cons x xs ih =>
    simp only [List.foldl_cons]
    have hx : ¬ (x.1.isPrefixOf rest && decide (bestLen (none : Option (List Nat × Int)) < x.1.length)) = true := by
      intro hc
      simp only [Bool.and_eq_true, decide_eq_true_eq, bestLen] at hc
      exact h x (List.mem_cons_self x xs) ⟨hc.1, hc.2⟩
    rw [if_neg hx]
    exact ih (fun e he => h e (List.mem_cons_of_mem x he))

/-- Properties of a successful special-token scan. -/
theorem findBestSpecial_some (sp : List (List Nat × Int)) (rest : List Nat)
    (e : List Nat × Int) (h : findBestSpecial sp rest = some e) :
    e ∈ sp ∧ e.1.isPrefixOf rest = true ∧ 0 < e.1.length := by
  rcases findBestSpecialAux_some rest sp none e h with heq | ⟨hmem, hpre, hlt⟩
  · exact absurd heq (by simp)
  · exact ⟨hmem, hpre, by simpa [bestLen] using hlt⟩

/-- Maximality of a successful special-token scan. -/
theorem findBestSpecial_max (sp : List (List Nat × Int)) (rest : List Nat)
    (t : List Nat) (id : Int) (h : findBestSpecial sp rest = some (t, id)) :
    ∀ e ∈ sp, e.1.isPrefixOf rest = true → e.1.length ≤ t.length := by
  intro e he hpre
  have := (findBestSpecialAux_ge rest sp none).1 e he hpre
  rw [show sp.foldl (fun best x =>
    if x.1.isPrefixOf rest && bestLen best < x.1.length then some x else best) none =
    findBestSpecial sp rest from rfl, h] at this
  simpa [bestLen] using this

/-- Segment text reconstruction distributes over append. -/
theorem segsText_append (f : Int → List Nat) (a b : List TokenSegment) :
    segsText f (a ++ b) = segsText f a ++ segsText f b := by
  simp [segsText]

/-- The segments emitted by the special-token splitter concatenate (normal
texts plus the literal token strings of the matched specials) exactly to the
pending prefix followed by the remaining text. -/
theorem extractSpecialLoop_concat (sp : List (List Nat × Int))
    (f : Int → List Nat) (hf : ∀ e ∈ sp, f e.2 = e.1) :
    ∀ pending text, segsText f (extractSpecialLoop sp pending text) = pending ++ text := by
  intro pending text
  induction pending, text using extractSpecialLoop.induct sp with
  | case1 pending =>
    rw [extractSpecialLoop]
    unfold flushNormal
    split <;> simp_all [segsText]
  | case2 pending c rest t id hfind ih =>
    rw [extractSpecialLoop]
    rw [hfind]
    rcases findBestSpecial_some sp (c :: rest) (t, id) hfind with ⟨hmem, hpre, hlen⟩
    rcases List.isPrefixOf_iff_prefix.mp hpre with ⟨u, hu⟩
    have hdrop : rest.drop (t.length - 1) = u := by
      have h1 : (c :: rest).drop t.length = u := by
        rw [← hu, List.drop_left]
      cases ht : t with
      | nil => simp [ht] at hlen
      | cons th tt =>
        rw [ht] at h1
        simpa using h1
    rw [segsText_append, segsText_append, ih]
    have hfid : f id = t := hf (t, id) hmem
    unfold flushNormal
    split <;> simp_all [segsText] <;> rw [← hu] <;> simp
  | case3 pending c rest hfind ih =>
    rw [extractSpecialLoop]
    rw [hfind, ih]
    simp

/-- When no suffix of the text has a special-token match the splitter returns
the whole text as one pending flush. -/
theorem extractSpecialLoop_nomatch (sp : List (List Nat × Int)) :
    ∀ pending text, (∀ s, s.IsSuffix text → findBestSpecial sp s = none) →
      extractSpecialLoop sp pending text = flushNormal (pending ++ text) := by
  intro pending text
  induction pending, text using extractSpecialLoop.induct sp with
  | case1 pending =>
    intro _
    rw [extractSpecialLoop]
    simp
  | case2 pending c rest t id hfind ih =>
    intro h
    exact absurd (h (c :: rest) (List.suffix_refl _)) (by simp [hfind])
  | case3 pending c rest hfind ih =>
    intro h
    rw [extractSpecialLoop, hfind, ih (fun s hs => h s (hs.trans (List.suffix_cons c rest)))]
    simp

/-- Uniqueness of the id bound to a token string in an entry list with
pairwise-distinct keys (a hash map). -/
theorem keysNodup_mem_unique (sp : List (List Nat × Int))
    (hkeys : (sp.map Prod.fst).Nodup) (t : List Nat) (v w : Int)
    (hv : (t, v) ∈ sp) (hw : (t, w) ∈ sp) : v = w := by
  induction sp with
  | nil => cases hv
  | cons x xs ih =>
    rw [List.map_cons] at hkeys
    obtain ⟨h1, h2⟩ := List.nodup_cons.mp hkeys
    rcases List.mem_cons.mp hv with hv1 | hv1 <;> rcases List.mem_cons.mp hw with hw1 | hw1
    · simpa using congrArg Prod.snd (hv1.trans hw1.symm)
    · have ht : x.1 = t := (congrArg Prod.fst hv1).symm
      have : x.1 ∈ xs.map Prod.fst := by
        rw [ht]
        exact List.mem_map_of_mem Prod.fst hw1
      exact absurd this h1
    · have ht : x.1 = t := (congrArg Prod.fst hw1).symm
      have : x.1 ∈ xs.map Prod.fst := by
        rw [ht]
        exact List.mem_map_of_mem Prod.fst hv1
      exact absurd this h1
    · exact ih h2 hv1 hw1

/-- An input equal to a non-empty registered special token (with distinct
registered token strings, as in a hash map) splits as exactly that special
segment. -/
theorem extract_whole_special (sp : List (List Nat × Int)) (t : List Nat) (id : Int)
    (hmem : (t, id) ∈ sp) (hne : 0 < t.length)
    (hkeys : (sp.map Prod.fst).Nodup) :
    extract_special_tokens sp t = [TokenSegment.special id] := by
  obtain ⟨c, rest, hct⟩ : ∃ c rest, t = c :: rest := by
    cases t with
    | nil => simp at hne
    | cons c rest => exact ⟨c, rest, rfl⟩
  have hselfpre : (t, id).1.isPrefixOf (c :: rest) = true := by
    rw [← hct]
    exact List.isPrefixOf_iff_prefix.mpr (List.prefix_refl _)
  unfold extract_special_tokens
  rw [hct, extractSpecialLoop]
  cases hfind : findBestSpecial sp (c :: rest) with
  | none =>
    have hge := (findBestSpecialAux_ge (c :: rest) sp none).1 (t, id) hmem hselfpre
    rw [show sp.foldl (fun best x =>
      if x.1.isPrefixOf (c :: rest) && bestLen best < x.1.length then some x else best) none =
      findBestSpecial sp (c :: rest) from rfl, hfind] at hge
    have hle : t.length ≤ 0 := by simpa [bestLen] using hge
    omega
  | some e =>
    obtain ⟨t', id'⟩ := e
    rcases findBestSpecial_some sp (c :: rest) (t', id') hfind with ⟨hmem', hpre', hlen'⟩
    have hmax : (t, id).1.length ≤ t'.length :=
      findBestSpecial_max sp (c :: rest) t' id' hfind (t, id) hmem hselfpre
    have hpre2 : t' <+: t := by
      rw [hct]
      exact List.isPrefixOf_iff_prefix.mp hpre'
    have hteq : t' = t :=
      hpre2.eq_of_length (le_antisymm hpre2.length_le (by simpa using hmax))
    have hid : id' = id := keysNodup_mem_unique sp hkeys t id' id (hteq ▸ hmem') hmem
    rw [hteq, hid]
    dsimp only
    have hrest : rest.drop (t.length - 1) = [] := by
      rw [hct]
      simp
    rw [hrest, extractSpecialLoop]
    simp [flushNormal]

/-- C4: the special-token splitter covers the input exactly — the in-order
concatenation of normal texts and matched special token strings is the input,
with no gaps and no overlaps; at every scan position the longest byte-wise
matching special token is the one retained; and an input equal to a non-empty
registered special token encodes as exactly that single id. -/
theorem C4_special_splitter (sp : List (List Nat × Int)) (text : List Nat)
    (f : Int → List Nat) (hf : ∀ e ∈ sp, f e.2 = e.1)
    (hkeys : (sp.map Prod.fst).Nodup) :
    segsText f (extract_special_tokens sp text) = text ∧
    (∀ rest t id, findBestSpecial sp rest = some (t, id) →
      (t, id) ∈ sp ∧ t.isPrefixOf rest = true ∧
      ∀ e ∈ sp, e.1.isPrefixOf rest = true → e.1.length ≤ t.length) ∧
    (∀ t id, (t, id) ∈ sp → 0 < t.length → text = t →
      ∀ tok : Tokenizer, tok.specials = sp → bbpeEncodeCore tok text = Except.ok [id]) := by
  refine ⟨?_, ?_, ?_⟩
  · exact extractSpecialLoop_concat sp f hf [] text
  · intro rest t id h
    rcases findBestSpecial_some sp rest (t, id) h with ⟨hmem, hpre, _⟩
    exact ⟨hmem, hpre, findBestSpecial_max sp rest t id h⟩
  · intro t id hmem hne htext tok htok
    unfold bbpeEncodeCore
    rw [htok, htext, extract_whole_special sp t id hmem hne hkeys]
    rfl

/-- Witness for C4 at the overlapping specials "<a" and "<a>" on the input
"<a>": the longer special wins and the input encodes as its single id. -/
theorem C4_special_splitter_witness :
    segsText spOverlapText (extract_special_tokens spOverlap [60, 97, 62]) = [60, 97, 62] ∧
    bbpeEncodeCore tokSp [60, 97, 62] = Except.ok [5] := by
  have hf : ∀ e ∈ spOverlap, spOverlapText e.2 = e.1 := by decide
  have hkeys : (spOverlap.map Prod.fst).Nodup := by decide
  have hth := C4_special_splitter spOverlap [60, 97, 62] spOverlapText hf hkeys
  exact ⟨hth.1, hth.2.2 [60, 97, 62] 5 (by decide) (by decide) rfl tokSp rfl⟩

/-- A hit of the binary search is an item of the row with the searched
`right_id`, carrying the returned `(new_id, priority)` (no sortedness
needed). -/
theorem mergeBinSearch_some_mem (items : List MergeRuleItem) (right : Int)
    (lo hi : Int) (n p : Int) (h : mergeBinSearch items right lo hi = some (n, p)) :
    ∃ it ∈ items, it.right_id = right ∧ it.new_id = n ∧ it.priority = p := by
  induction lo, hi using mergeBinSearch.induct items right with
  | case1 lo hi hle mid hget =>
    rw [mergeBinSearch] at h
    simp only [dif_pos hle, hget] at h
    exact absurd h (by simp)
  | case2 lo hi hle mid it hget heq =>
    rw [mergeBinSearch] at h
    simp only [dif_pos hle, hget, if_pos heq] at h
    simp only [Option.some.injEq, Prod.mk.injEq] at h
    exact ⟨it, List.get?_mem hget, heq, h.1, h.2⟩
  | case3 lo hi hle mid it hget hne hlt ih =>
    rw [mergeBinSearch] at h
    simp only [dif_pos hle, hget, if_neg hne, if_pos hlt] at h
    exact ih h
  | case4 lo hi hle mid it hget hne hnlt ih =>
    rw [mergeBinSearch] at h
    simp only [dif_pos hle, hget, if_neg hne, if_neg hnlt] at h
    exact ih h
  | case5 lo hi hle =>
    rw [mergeBinSearch] at h
    simp only [dif_neg hle] at h
    exact absurd h (by simp)

/-- Strict sortedness by `right_id` makes the keys of a row pairwise
distinct. -/
theorem rowKeysNodup (items : List MergeRuleItem)
    (hsorted : List.Pairwise (fun a b => a.right_id < b.right_id) items) :
    (items.map (fun it => it.right_id)).Nodup :=
  List.pairwise_map.mpr (hsorted.imp (fun hab => ne_of_lt hab))

/-- In a row with pairwise-distinct keys, `find?` locates exactly the member
carrying the searched key. -/
theorem find?_of_key_mem (items : List MergeRuleItem) (right : Int)
    (hnd : (items.map (fun it => it.right_id)).Nodup)
    (it : MergeRuleItem) (hmem : it ∈ items) (hkey : it.right_id = right) :
    items.find? (fun x => x.right_id == right) = some it := by
  induction items with
  | nil => cases hmem
  | cons x xs ih =>
    rw [List.map_cons] at hnd
    obtain ⟨h1, h2⟩ := List.nodup_cons.mp hnd
    rcases List.mem_cons.mp hmem with hx | hx
    · subst hx
      rw [List.find?_cons_of_pos _ (by simp [hkey])]
    · have hxe : ¬ x.right_id = right := by
        intro hxr
        apply h1
        rw [hxr, ← hkey]
        exact List.mem_map_of_mem _ hx
      rw [List.find?_cons_of_neg _ (by simp [hxe])]
      exact ih h2 hx

/-- Value of `getD` at an in-range index. -/
theorem getD_eq_getElem_merge (items : List MergeRuleItem) (j : Nat)
    (hj : j < items.length) : items.getD j ⟨0, 0, 0⟩ = items[j] := by
  rw [List.getD_eq_getElem?_getD, List.getElem?_eq_getElem hj]
  rfl

/-- The C binary search over a strictly sorted window agrees with a linear
`find?` of the row, provided everything left of the window is smaller and
everything right of it larger than the key. -/
theorem mergeBinSearch_eq_find (items : List MergeRuleItem) (right : Int)
    (hsorted : List.Pairwise (fun a b => a.right_id < b.right_id) items)
    (lo hi : Int) (hlo : 0 ≤ lo) (hhi : hi < (items.length : Int))
    (hleft : ∀ j : Nat, ∀ hj : j < items.length, (j : Int) < lo →
      (items[j]).right_id < right)
    (hright : ∀ j : Nat, ∀ hj : j < items.length, hi < (j : Int) →
      right < (items[j]).right_id) :
    mergeBinSearch items right lo hi =
      (items.find? (fun it => it.right_id == right)).map
        (fun it => (it.new_id, it.priority)) := by
  have hidx := List.pairwise_iff_getElem.mp hsorted
  induction lo, hi using mergeBinSearch.induct items right with
  | case1 lo hi hle mid hget =>
    exfalso
    have hmid : mid.toNat < items.length := by omega
    rw [List.get?_eq_getElem?, List.getElem?_eq_getElem hmid] at hget
    cases hget
  | case2 lo hi hle mid it hget heq =>
    rw [mergeBinSearch]
    simp only [dif_pos hle, hget, if_pos heq]
    have hmem : it ∈ items := List.get?_mem hget
    rw [find?_of_key_mem items right (rowKeysNodup items hsorted) it hmem heq]
    rfl
  | case3 lo hi hle mid it hget hne hlt ih =>
    rw [mergeBinSearch]
    simp only [dif_pos hle, hget, if_neg hne, if_pos hlt]
    have hmid : mid.toNat < items.length := by omega
    have hgetm : items[mid.toNat] = it := by
      rw [List.get?_eq_getElem?, List.getElem?_eq_getElem hmid] at hget
      simpa using hget
    apply ih (by omega) hhi
    · intro j hj hjlt
      by_cases hcase : (j : Int) < lo
      · exact hleft j hj hcase
      · by_cases hj2 : j = mid.toNat
        · subst hj2
          rw [hgetm]
          exact hlt
        · have hjlt2 : j < mid.toNat := by omega
          have hord := hidx j mid.toNat hj hmid hjlt2
          rw [hgetm] at hord
          exact lt_trans hord hlt
    · exact hright
  | case4 lo hi hle mid it hget hne hnlt ih =>
    rw [mergeBinSearch]
    simp only [dif_pos hle, hget, if_neg hne, if_neg hnlt]
    have hmid : mid.toNat < items.length := by omega
    have hgetm : items[mid.toNat] = it := by
      rw [List.get?_eq_getElem?, List.getElem?_eq_getElem hmid] at hget
      simpa using hget
    have hgt : right < it.right_id :=
      lt_of_le_of_ne (le_of_not_lt hnlt) (fun he => hne he.symm)
    apply ih hlo (by omega) hleft
    · intro j hj hjgt
      by_cases hcase : hi < (j : Int)
      · exact hright j hj hcase
      · by_cases hj2 : j = mid.toNat
        · subst hj2
          rw [hgetm]
          exact hgt
        · have hjgt2 : mid.toNat < j := by omega
          have hord := hidx mid.toNat j hmid hj hjgt2
          rw [hgetm] at hord
          exact lt_trans hgt hord
  | case5 lo hi hle =>
    rw [mergeBinSearch]
    simp only [dif_neg hle]
    have hnone : items.find? (fun it => it.right_id == right) = none := by
      rw [List.find?_eq_none]
      intro x hx
      obtain ⟨j, hj, hxj⟩ := List.mem_iff_getElem.mp hx
      simp only [beq_iff_eq]
      rcases lt_or_le ((j : Int)) lo with hc | hc
      · have hb := hleft j hj hc
        rw [hxj] at hb
        omega
      · have hcgt : hi < (j : Int) := by omega
        have hb := hright j hj hcgt
        rw [hxj] at hb
        omega
    rw [hnone]
    rfl

/-- Under strictly sorted rows, `find_merge_rule` (binary search in the row of
the left id) returns exactly the spec-side row lookup. -/
theorem find_merge_rule_eq_spec (tok : Tokenizer)
    (hrows : ∀ l : Int, List.Pairwise (fun a b => a.right_id < b.right_id) (tok.ruleRows l))
    (l r : Int) : find_merge_rule tok l r = specRuleLookup tok l r := by
  unfold find_merge_rule specRuleLookup
  by_cases hrange : l < 0 ∨ tok.vocabSize ≤ l
  · rw [if_pos hrange, if_neg (show ¬(0 ≤ l ∧ l < tok.vocabSize) by omega)]
  · have hr2 : 0 ≤ l ∧ l < tok.vocabSize := by omega
    rw [if_neg hrange, if_pos hr2]
    by_cases hlen : (tok.ruleRows l).length = 0
    · rw [if_pos hlen, List.length_eq_zero.mp hlen]
      rfl
    · rw [if_neg hlen]
      have hlen2 : 0 < (tok.ruleRows l).length := Nat.pos_of_ne_zero hlen
      exact mergeBinSearch_eq_find (tok.ruleRows l) r (hrows l) 0
        (Int.ofNat (tok.ruleRows l).length - 1) (le_refl 0)
        (by rw [Int.ofNat_eq_coe]; omega)
        (fun j hj hjlt => absurd hjlt (by omega))
        (fun j hj hjgt => absurd hjgt (by rw [Int.ofNat_eq_coe] at hjgt ⊢; omega))

/-- Characterization of the `find_best_merge` scan over the first `k`
adjacent-pair indices: a `none` result means no probe hit; a hit carries the
data of its own probe, has minimal priority among all probes, and is strictly
better than every earlier probe (the `priority < min_priority` update keeps
the leftmost position among priority ties). -/
theorem findBestMergeFold_char (tok : Tokenizer) (ids : List Int) (k : Nat) :
    ((List.range k).foldl (bestMergeStep tok ids) none = none →
      ∀ j, j < k → find_merge_rule tok (ids.getD j 0) (ids.getD (j + 1) 0) = none) ∧
    (∀ i n p, (List.range k).foldl (bestMergeStep tok ids) none = some (i, n, p) →
      i < k ∧ find_merge_rule tok (ids.getD i 0) (ids.getD (i + 1) 0) = some (n, p) ∧
      (∀ j, j < k → ∀ n' p',
        find_merge_rule tok (ids.getD j 0) (ids.getD (j + 1) 0) = some (n', p') → p ≤ p') ∧
      (∀ j, j < i → ∀ n' p',
        find_merge_rule tok (ids.getD j 0) (ids.getD (j + 1) 0) = some (n', p') → p < p')) := by
  induction k with
  | zero =>
    constructor
    · intro _ j hj
      omega
    · intro i n p h
      simp at h
  | succ k ih =>
    rw [List.range_succ, List.foldl_append, List.foldl_cons, List.foldl_nil]
    obtain ⟨ihn, ihs⟩ := ih
    cases hprobe : find_merge_rule tok (ids.getD k 0) (ids.getD (k + 1) 0) with
    | none =>
      rw [show ∀ acc, bestMergeStep tok ids acc k = acc from fun acc => by
        unfold bestMergeStep; rw [hprobe]]
      constructor
      · intro h j hj
        rcases Nat.lt_succ_iff_lt_or_eq.mp hj with hlt | heq
        · exact ihn h j hlt
        · rw [heq]
          exact hprobe
      · intro i n p h
        obtain ⟨hik, hpi, hmin, hleft⟩ := ihs i n p h
        refine ⟨Nat.lt_succ_of_lt hik, hpi, ?_, hleft⟩
        intro j hj n' p' hpj
        rcases Nat.lt_succ_iff_lt_or_eq.mp hj with hlt | heq
        · exact hmin j hlt n' p' hpj
        · rw [heq, hprobe] at hpj
          exact absurd hpj (by simp)
    | some c =>
      obtain ⟨nid, prio⟩ := c
      cases hacc : (List.range k).foldl (bestMergeStep tok ids) none with
      | none =>
        rw [show bestMergeStep tok ids none k = some (k, nid, prio) from by
          unfold bestMergeStep; rw [hprobe]]
        constructor
        · intro h
          exact absurd h (by simp)
        · intro i n p h
          simp only [Option.some.injEq, Prod.mk.injEq] at h
          obtain ⟨hik, hn, hp⟩ := h
          subst hik
          subst hn
          subst hp
          refine ⟨Nat.lt_succ_self _, hprobe, ?_, ?_⟩
          · intro j hj n' p' hpj
            rcases Nat.lt_succ_iff_lt_or_eq.mp hj with hlt | heq
            · rw [ihn hacc j hlt] at hpj
              exact absurd hpj (by simp)
            · rw [heq, hprobe] at hpj
              simp only [Option.some.injEq, Prod.mk.injEq] at hpj
              omega
          · intro j hj n' p' hpj
            rw [ihn hacc j hj] at hpj
            exact absurd hpj (by simp)
      | some b =>
        obtain ⟨bi, bn, bp⟩ := b
        rw [show bestMergeStep tok ids (some (bi, bn, bp)) k =
          if prio < bp then some (k, nid, prio) else some (bi, bn, bp) from by
          unfold bestMergeStep; rw [hprobe]]
        obtain ⟨hbik, hbprobe, hbmin, hbleft⟩ := ihs bi bn bp hacc
        by_cases hcmp : prio < bp
        · rw [if_pos hcmp]
          constructor
          · intro h
            exact absurd h (by simp)
          · intro i n p h
            simp only [Option.some.injEq, Prod.mk.injEq] at h
            obtain ⟨hik, hn, hp⟩ := h
            subst hik
            subst hn
            subst hp
            refine ⟨Nat.lt_succ_self _, hprobe, ?_, ?_⟩
            · intro j hj n' p' hpj
              rcases Nat.lt_succ_iff_lt_or_eq.mp hj with hlt | heq
              · have := hbmin j hlt n' p' hpj
                omega
              · rw [heq, hprobe] at hpj
                simp only [Option.some.injEq, Prod.mk.injEq] at hpj
                omega
            · intro j hj n' p' hpj
              have := hbmin j (by omega) n' p' hpj
              omega
        · rw [if_neg hcmp]
          constructor
          · intro h
            exact absurd h (by simp)
          · intro i n p h
            simp only [Option.some.injEq, Prod.mk.injEq] at h
            obtain ⟨hik, hn, hp⟩ := h
            subst hik
            subst hn
            subst hp
            refine ⟨Nat.lt_succ_of_lt hbik, hbprobe, ?_, hbleft⟩
            intro j hj n' p' hpj
            rcases Nat.lt_succ_iff_lt_or_eq.mp hj with hlt | heq
            · exact hbmin j hlt n' p' hpj
            · rw [heq, hprobe] at hpj
              simp only [Option.some.injEq, Prod.mk.injEq] at hpj
              omega

/-- A `none` of `find_best_merge` means no adjacent pair has a rule. -/
theorem find_best_merge_none (tok : Tokenizer) (ids : List Int)
    (h : find_best_merge tok ids = none) :
    ∀ j, j + 1 < ids.length →
      find_merge_rule tok (ids.getD j 0) (ids.getD (j + 1) 0) = none := by
  intro j hj
  unfold find_best_merge at h
  have hfold : findBestMergeFold tok ids = none := by
    cases hf : findBestMergeFold tok ids with
    | none => rfl
    | some b => rw [hf] at h; exact absurd h (by simp)
  exact (findBestMergeFold_char tok ids (ids.length - 1)).1 hfold j (by omega)

/-- A hit of `find_best_merge` is, under strictly sorted rows, a best merge in
the sense of the specification: its pair has the rule with the returned new
id, of minimal priority, at the leftmost position attaining that priority. -/
theorem find_best_merge_some (tok : Tokenizer)
    (hrows : ∀ l : Int, List.Pairwise (fun a b => a.right_id < b.right_id) (tok.ruleRows l))
    (ids : List Int) (i : Nat) (newId : Int)
    (h : find_best_merge tok ids = some (i, newId)) :
    ∃ p, IsBestMerge tok ids i newId p := by
  unfold find_best_merge at h
  obtain ⟨⟨i', n', p'⟩, hfold, heq⟩ := Option.map_eq_some'.mp h
  simp only [Prod.mk.injEq] at heq
  obtain ⟨hi, hn⟩ := heq
  refine ⟨p', ?_⟩
  rw [← hi, ← hn]
  obtain ⟨hik, hpi, hmin, hleft⟩ :=
    (findBestMergeFold_char tok ids (ids.length - 1)).2 i' n' p' hfold
  refine ⟨by omega, ?_, ?_, ?_⟩
  · rw [← find_merge_rule_eq_spec tok hrows]
    exact hpi
  · intro j hj n2 p2 hs
    exact hmin j (by omega) n2 p2 (by rw [find_merge_rule_eq_spec tok hrows]; exact hs)
  · intro j hji hj n2 p2 hs
    exact hleft j hji n2 p2 (by rw [find_merge_rule_eq_spec tok hrows]; exact hs)

/-- The merge replacement of the source — write `new_id` at `i` and delete
slot `i+1`, shifting the tail down — equals the spec's take/drop form. -/
theorem set_eraseIdx_eq_take_drop (ids : List Int) (i : Nat) (x : Int)
    (h : i + 1 < ids.length) :
    (ids.set i x).eraseIdx (i + 1) = ids.take i ++ x :: ids.drop (i + 2) := by
  induction i generalizing ids with
  | zero =>
    cases ids with
    | nil => simp at h
    | cons a rest =>
      cases rest with
      | nil => simp at h
      | cons b rest2 => simp [List.set, List.eraseIdx]
  | succ i ih =>
    cases ids with
    | nil => simp at h
    | cons a rest =>
      simp only [List.set, List.eraseIdx, List.take, List.drop]
      congr 1
      exact ih rest (by simpa using h)

/-- The merge loop of `encode_chunk` performs a sequence of specification
merge steps (each at a position chosen per the smallest-priority, leftmost
tie-break rule) and stops exactly when no adjacent pair has a rule. -/
theorem mergeLoop_spec (tok : Tokenizer)
    (hrows : ∀ l : Int, List.Pairwise (fun a b => a.right_id < b.right_id) (tok.ruleRows l))
    (ids : List Int) :
    SpecMergesTo tok ids (mergeLoop tok ids) ∧
    NoMergeablePair tok (mergeLoop tok ids) := by
  induction ids using mergeLoop.induct tok with
  | case1 ids hlen =>
    rw [mergeLoop, if_pos hlen]
    refine ⟨Relation.ReflTransGen.refl, ?_⟩
    intro j hj
    omega
  | case2 ids hlen hfind =>
    rw [mergeLoop, if_neg hlen, hfind]
    refine ⟨Relation.ReflTransGen.refl, ?_⟩
    intro j hj
    rw [← find_merge_rule_eq_spec tok hrows]
    exact find_best_merge_none tok ids hfind j hj
  | case3 ids hlen i newId hfind next hlt ih =>
    rw [mergeLoop, if_neg hlen, hfind]
    dsimp only
    rw [dif_pos hlt]
    obtain ⟨p, hbest⟩ := find_best_merge_some tok hrows ids i newId hfind
    have hstep : SpecMergeStep tok ids next := by
      have hnext : next = ids.take i ++ newId :: ids.drop (i + 2) :=
        set_eraseIdx_eq_take_drop ids i newId hbest.1
      rw [hnext]
      exact SpecMergeStep.step ids i newId p hbest
    exact ⟨Relation.ReflTransGen.head hstep ih.1, ih.2⟩
  | case4 ids hlen i newId hfind next hnlt =>
    exfalso
    obtain ⟨p, hbest⟩ := find_best_merge_some tok hrows ids i newId hfind
    apply hnlt
    show ((ids.set i newId).eraseIdx (i + 1)).length < ids.length
    rw [List.length_eraseIdx]
    have := hbest.1
    simp only [List.length_set]
    split
    · omega
    · simp only [List.length_set] at *
      omega

/-- Byte expansion of a chunk whose bytes all have their precomputed alphabet
strings in the vocabulary. -/
theorem byteExpand_eq (tok : Tokenizer) (chunk : List Nat) (byteId : Nat → Int)
    (hb : ∀ b ∈ chunk, tok.vocabFind (byteVocabStr b) = some (byteId b)) :
    byteExpand tok chunk = Except.ok (chunk.map byteId) := by
  induction chunk with
  | nil => rfl
  | cons b rest ih =>
    unfold byteExpand at *
    rw [List.mapM_cons]
    rw [hb b (List.mem_cons_self b rest)]
    rw [ih (fun x hx => hb x (List.mem_cons_of_mem b hx))]
    rfl

/-- C2: `encode_chunk` first maps each chunk byte to the vocabulary id of its
precomputed alphabet string `utf8(B(b))` and then runs the merge loop; the
loop's result is reached from those byte ids by repeatedly applying a merge
rule of minimal priority at the leftmost position attaining it (replacing
`ids[i]`, deleting `ids[i+1]` and shifting the tail down), and it terminates
exactly when no adjacent pair has a rule. -/
theorem C2_bpe_merger (tok : Tokenizer) (chunk : List Nat) (byteId : Nat → Int)
    (hrows : ∀ l : Int, List.Pairwise (fun a b => a.right_id < b.right_id) (tok.ruleRows l))
    (hb : ∀ b ∈ chunk, tok.vocabFind (byteVocabStr b) = some (byteId b)) :
    encode_chunk tok chunk = Except.ok (mergeLoop tok (chunk.map byteId)) ∧
    SpecMergesTo tok (chunk.map byteId) (mergeLoop tok (chunk.map byteId)) ∧
    NoMergeablePair tok (mergeLoop tok (chunk.map byteId)) := by
  obtain ⟨hto, hfix⟩ := mergeLoop_spec tok hrows (chunk.map byteId)
  refine ⟨?_, hto, hfix⟩
  unfold encode_chunk
  by_cases hc : chunk.length = 0
  · rw [if_pos hc]
    rw [List.length_eq_zero.mp hc]
    rw [show mergeLoop tok (([] : List Nat).map byteId) = [] from by
      rw [List.map_nil, mergeLoop]
      simp]
  · rw [if_neg hc, byteExpand_eq tok chunk byteId hb]
    rfl

/-- Witness for C2 at the tokenizer `tokM` (vocabulary "a","b","ab", single
rule (0,1) → 2) on the chunk "ab": the hypotheses hold and the chunk encodes
through the merge loop on the byte ids [0, 1]. -/
theorem C2_bpe_merger_witness :
    encode_chunk tokM [97, 98] =
      Except.ok (mergeLoop tokM ([97, 98].map (fun b => Int.ofNat b - 97))) ∧
    NoMergeablePair tokM (mergeLoop tokM ([97, 98].map (fun b => Int.ofNat b - 97))) := by
  have hrows : ∀ l : Int,
      List.Pairwise (fun a b => a.right_id < b.right_id) (tokM.ruleRows l) := by
    intro l
    show List.Pairwise _ (if l = 0 then [(⟨1, 2, 0⟩ : MergeRuleItem)] else [])
    split <;> simp
  have hb : ∀ b ∈ [97, 98],
      tokM.vocabFind (byteVocabStr b) = some (Int.ofNat b - 97) := by decide
  have hth := C2_bpe_merger tokM [97, 98] (fun b => Int.ofNat b - 97) hrows hb
  exact ⟨hth.1, hth.2.2⟩

/-- Monotonicity of the non-printable count of `init_byte_mappings`. -/
theorem countP_range_mono (p : Nat → Bool) (m n : Nat) (h : m ≤ n) :
    (List.range m).countP p ≤ (List.range n).countP p := by
  induction n with
  | zero =>
    have : m = 0 := by omega
    rw [this]
  | succ n ih =>
    by_cases hm : m = n + 1
    · rw [hm]
    · have hle := ih (by omega)
      rw [List.range_succ, List.countP_append]
      omega

/-- Strict growth of the non-printable count across a non-printable byte. -/
theorem countP_range_strict (p : Nat → Bool) (a b : Nat) (hab : a < b)
    (hpa : p a = true) :
    (List.range a).countP p < (List.range b).countP p := by
  have h1 : (List.range (a + 1)).countP p = (List.range a).countP p + 1 := by
    rw [List.range_succ, List.countP_append]
    simp [List.countP_cons, hpa]
  have h2 := countP_range_mono p (a + 1) b (by omega)
  omega

/-- Lower bound of the byte alphabet: every code point is at least 33. -/
theorem byteToUnicode_ge (b : Nat) : 33 ≤ byteToUnicode b := by
  unfold byteToUnicode
  split
  · rename_i hp
    unfold isPrintableByte at hp
    simp only [Bool.or_eq_true, Bool.and_eq_true, decide_eq_true_eq] at hp
    omega
  · omega

/-- Upper bound of the byte alphabet over the 256 bytes: every code point fits
the 512-entry inverse table. -/
theorem byteToUnicode_lt (b : Nat) (hb : b < 256) : byteToUnicode b < 512 := by
  unfold byteToUnicode
  split
  · omega
  · have hc : (List.range b).countP (fun x => !isPrintableByte x) ≤ b := by
      calc (List.range b).countP (fun x => !isPrintableByte x)
          ≤ (List.range b).length := List.countP_le_length _
        _ = b := List.length_range b
    omega

/-- The byte alphabet is injective over the 256 bytes. -/
theorem byteToUnicode_inj (b1 b2 : Nat) (h1 : b1 < 256) (h2 : b2 < 256)
    (heq : byteToUnicode b1 = byteToUnicode b2) : b1 = b2 := by
  unfold byteToUnicode at heq
  by_cases hp1 : isPrintableByte b1 = true <;> by_cases hp2 : isPrintableByte b2 = true
  · rw [if_pos hp1, if_pos hp2] at heq
    exact heq
  · rw [if_pos hp1, if_neg hp2] at heq
    exfalso
    omega
  · rw [if_neg hp1, if_pos hp2] at heq
    exfalso
    omega
  · rw [if_neg hp1, if_neg hp2] at heq
    have hcnt : (List.range b1).countP (fun x => !isPrintableByte x) =
        (List.range b2).countP (fun x => !isPrintableByte x) := by omega
    rcases Nat.lt_trichotomy b1 b2 with hlt | heqb | hgt
    · exact absurd hcnt (by
        have := countP_range_strict (fun x => !isPrintableByte x) b1 b2 hlt
          (by simp [hp1])
        omega)
    · exact heqb
    · exact absurd hcnt (by
        have := countP_range_strict (fun x => !isPrintableByte x) b2 b1 hgt
          (by simp [hp2])
        omega)

/-- Generic first-match lemma: `find?` returns the unique satisfying member. -/
theorem find?_unique_mem {α : Type} (l : List α) (pred : α → Bool) (a : α)
    (hmem : a ∈ l) (hpa : pred a = true)
    (huniq : ∀ x ∈ l, pred x = true → x = a) :
    l.find? pred = some a := by
  induction l with
  | nil => cases hmem
  | cons x xs ih =>
    by_cases hx : pred x = true
    · rw [List.find?_cons_of_pos _ hx]
      rw [huniq x (List.mem_cons_self x xs) hx]
    · rw [List.find?_cons_of_neg _ hx]
      rcases List.mem_cons.mp hmem with hax | hax
      · rw [← hax] at hx
        exact absurd hpa hx
      · exact ih hax (fun y hy hpy => huniq y (List.mem_cons_of_mem x hy) hpy)

/-- The inverse table undoes the byte alphabet on every byte, including byte
0 (whose slot legitimately holds the value 0). -/
theorem unicodeToByte_byteToUnicode (b : Nat) (hb : b < 256) :
    unicodeToByte (byteToUnicode b) = b := by
  unfold unicodeToByte
  rw [if_pos (byteToUnicode_lt b hb)]
  rw [find?_unique_mem (List.range 256) (fun x => byteToUnicode x == byteToUnicode b) b
    (List.mem_range.mpr hb) (by simp)
    (fun x hx hpx => byteToUnicode_inj x b (List.mem_range.mp hx) hb
      (by simpa using hpx))]
  rfl

/-- Bit-level facts about the two-byte UTF-8 encoding, checked per high/low
six-bit half: the lead byte is non-zero, not a one-byte lead, carries the
`110xxxxx` pattern; the continuation byte carries `10xxxxxx`; and the decoder's
reassembly recovers the code point. -/
theorem utf8_two_byte_aux : ∀ a, a < 32 → ∀ b, b < 64 →
    (0xC0 ||| a ≠ 0) ∧ ¬ (0xC0 ||| a < 0x80) ∧ ((0xC0 ||| a) &&& 0xE0 = 0xC0) ∧
    ((0x80 ||| b) &&& 0xC0 = 0x80) ∧
    ((((0xC0 ||| a) &&& 0x1F) <<< 6) ||| ((0x80 ||| b) &&& 0x3F) = 64 * a + b) := by
  decide

/-- Bit-level facts about the two-byte UTF-8 encoding of any code point below
0x800, obtained from the per-half table by splitting the code point at bit 6. -/
theorem utf8_two_byte_facts : ∀ cp, cp < 0x800 → 0x80 ≤ cp →
    (0xC0 ||| (cp >>> 6) ≠ 0) ∧
    ¬ (0xC0 ||| (cp >>> 6) < 0x80) ∧
    ((0xC0 ||| (cp >>> 6)) &&& 0xE0 = 0xC0) ∧
    ((0x80 ||| (cp &&& 0x3F)) &&& 0xC0 = 0x80) ∧
    ((((0xC0 ||| (cp >>> 6)) &&& 0x1F) <<< 6) ||| ((0x80 ||| (cp &&& 0x3F)) &&& 0x3F) = cp) := by
  intro cp h2 h1
  have hdiv : cp >>> 6 = cp / 64 := by
    rw [Nat.shiftRight_eq_div_pow]
  have hmod : cp &&& 0x3F = cp % 64 := by
    have h := Nat.and_pow_two_sub_one_eq_mod cp 6
    simpa using h
  have haux := utf8_two_byte_aux (cp / 64) (by omega) (cp % 64) (by omega)
  rw [hdiv, hmod]
  have hcp : 64 * (cp / 64) + cp % 64 = cp := by omega
  rw [hcp] at haux
  exact haux

/-- Decoding after encoding a code point of the byte alphabet's range (all
below 0x800) consumes exactly the encoded bytes and recovers the code point,
regardless of what follows. -/
theorem utf8_roundtrip (cp : Nat) (h1 : 0 < cp) (h2 : cp < 0x800) (rest : List Nat) :
    utf8Decode (utf8Encode cp ++ rest) = some (cp, (utf8Encode cp).length) ∧
    (∀ c ∈ utf8Encode cp, c ≠ 0) ∧
    (utf8Encode cp ++ rest).drop (utf8Encode cp).length = rest := by
  by_cases hsmall : cp < 0x80
  · rw [show utf8Encode cp = [cp] from by unfold utf8Encode; rw [if_pos hsmall]]
    refine ⟨?_, by simpa using fun h => absurd h (by omega), by simp⟩
    show utf8Decode (cp :: rest) = some (cp, 1)
    unfold utf8Decode
    dsimp only
    rw [if_pos hsmall]
  · obtain ⟨hz, hnl, hlead, hcont, hre⟩ := utf8_two_byte_facts cp h2 (by omega)
    rw [show utf8Encode cp = [0xC0 ||| (cp >>> 6), 0x80 ||| (cp &&& 0x3F)] from by
      unfold utf8Encode; rw [if_neg hsmall, if_pos h2]]
    refine ⟨?_, ?_, by simp⟩
    · show utf8Decode ((0xC0 ||| (cp >>> 6)) :: (0x80 ||| (cp &&& 0x3F)) :: rest) =
        some (cp, 2)
      unfold utf8Decode
      dsimp only
      rw [if_neg hnl]
      rw [if_pos (by simpa using hlead)]
      simp only [List.getD_cons_zero]
      rw [if_neg (by simp [hcont])]
      rw [hre]
    · intro c hc
      rcases List.mem_cons.mp hc with hc1 | hc1
      · rw [hc1]
        exact hz
      · rcases List.mem_cons.mp hc1 with hc2 | hc2
        · rw [hc2]
          intro hzero
          have hand : (0x80 ||| (cp &&& 0x3F)) &&& 0xC0 = 0 := by rw [hzero]; rfl
          rw [hcont] at hand
          exact absurd hand (by omega)
        · cases hc2

/-- The decoder walk inverts the alphabet image of a byte string whose bytes
are non-NUL `char` values: each code point `B(b)` is read back and, its
inverse-table slot being exactly `b ≠ 0`, emitted as the single byte `b`. -/
theorem decodeTokenStr_byteEncodeStr (bs : List Nat)
    (hb : ∀ b ∈ bs, 0 < b ∧ b < 256) :
    decodeTokenStr (byteEncodeStr bs) = some bs := by
  induction bs with
  | nil =>
    show decodeTokenStr [] = some []
    rw [decodeTokenStr]
  | cons b rest ih =>
    obtain ⟨hb0, hb256⟩ := hb b (List.mem_cons_self b rest)
    have hcp1 : 0 < byteToUnicode b := by
      have := byteToUnicode_ge b
      omega
    have hcp2 : byteToUnicode b < 0x800 := by
      have := byteToUnicode_lt b hb256
      omega
    have hrt := utf8_roundtrip (byteToUnicode b) hcp1 hcp2 (byteEncodeStr rest)
    obtain ⟨hdec, hnz, hdrop⟩ := hrt
    have hexp : byteEncodeStr (b :: rest) = utf8Encode (byteToUnicode b) ++ byteEncodeStr rest := by
      unfold byteEncodeStr byteVocabStr
      simp
    rw [hexp]
    obtain ⟨c, cs, hcons, hcne⟩ : ∃ c cs,
        utf8Encode (byteToUnicode b) ++ byteEncodeStr rest = c :: cs ∧ c ≠ 0 := by
      cases he : utf8Encode (byteToUnicode b) with
      | nil =>
        exfalso
        have hlen := congrArg List.length he
        unfold utf8Encode at hlen
        split at hlen <;> simp at hlen <;> split at hlen <;> simp at hlen <;>
          split at hlen <;> simp at hlen
      | cons c cs0 =>
        exact ⟨c, cs0 ++ byteEncodeStr rest, by simp,
          hnz c (by rw [he]; exact List.mem_cons_self _ _)⟩
    rw [hcons, decodeTokenStr]
    rw [if_neg hcne]
    rw [← hcons]
    rw [hdec]
    dsimp only
    rw [if_pos (by
      rw [unicodeToByte_byteToUnicode b hb256]
      have hlt := byteToUnicode_lt b hb256
      simp only [Bool.and_eq_true, decide_eq_true_eq, bne_iff_ne]
      exact ⟨hlt, by omega⟩)]
    rw [hdrop, ih (fun x hx => hb x (List.mem_cons_of_mem b hx))]
    rw [unicodeToByte_byteToUnicode b hb256]
    rfl

/-- The alphabet image distributes over concatenation of byte strings. -/
theorem byteEncodeStr_append (a b : List Nat) :
    byteEncodeStr (a ++ b) = byteEncodeStr a ++ byteEncodeStr b := by
  simp [byteEncodeStr]

/-- A code point of the byte alphabet's image is at least 33 (printable bytes
map to themselves from 33 up, the rest to 256 and above). -/
theorem cpInImage_ge (cp : Nat) (h : cpInImage cp = true) : 33 ≤ cp := by
  unfold cpInImage at h
  obtain ⟨b, _, hb⟩ := List.any_eq_true.mp h
  have : byteToUnicode b = cp := by simpa using hb
  rw [← this]
  exact byteToUnicode_ge b

/-- An element of a `take` prefix is a `getD` value at an index below the
prefix length. -/
theorem mem_take_getD (l : List Nat) (n c : Nat) (hc : c ∈ l.take n) :
    ∃ k, k < n ∧ l.getD k 0 = c := by
  obtain ⟨i, hi, hgd⟩ := List.getElem_of_mem hc
  have hi2 : i < l.length := by
    simp only [List.length_take] at hi
    omega
  have hin : i < n := by
    simp only [List.length_take] at hi
    omega
  refine ⟨i, hin, ?_⟩
  rw [List.getD_eq_getElem l 0 hi2, ← List.getElem_take]
  exact hgd

/-- Every byte consumed by a successful decode of a code point that is at
least 33 is non-zero: the one-byte form is the code point itself, the lead
byte of a longer form carries a high bit, and every continuation byte passed
the `10xxxxxx` test (so the NUL terminator in particular stops the walk and is
never consumed). -/
theorem utf8Decode_bytes_pos (b : Nat) (rest : List Nat) (cp len : Nat)
    (h : utf8Decode (b :: rest) = some (cp, len)) (h33 : 33 ≤ cp) :
    ∀ c ∈ (b :: rest).take len, 0 < c := by
  unfold utf8Decode at h
  dsimp only at h
  by_cases h1 : b < 0x80
  · rw [if_pos h1] at h
    simp only [Option.some.injEq, Prod.mk.injEq] at h
    obtain ⟨hcp, hlen⟩ := h
    intro c hc
    rw [← hlen] at hc
    simp only [List.take_succ_cons, List.take_zero] at hc
    rcases List.mem_singleton.mp hc with rfl
    omega
  · rw [if_neg h1] at h
    by_cases h2 : (b &&& 0xE0 == 0xC0) = true
    · rw [if_pos h2] at h
      by_cases hg : (rest.getD 0 0 &&& 0xC0 != 0x80) = true
      · rw [if_pos hg] at h
        exact absurd h (by simp)
      · rw [if_neg hg] at h
        simp only [Option.some.injEq, Prod.mk.injEq] at h
        obtain ⟨hcp, hlen⟩ := h
        simp only [bne_iff_ne, ne_eq, Decidable.not_not] at hg
        intro c hc
        rw [← hlen] at hc
        simp only [List.take_succ_cons] at hc
        rcases List.mem_cons.mp hc with hcb | hc2
        · rw [hcb]
          simp only [beq_iff_eq] at h2
          by_contra hb0
          have : b = 0 := by omega
          rw [this] at h2
          exact absurd h2 (by decide)
        · obtain ⟨k, hk, hgd⟩ := mem_take_getD rest 1 c hc2
          have hk0 : k = 0 := by omega
          rw [hk0] at hgd
          rw [hgd] at hg
          by_contra hc0
          have : c = 0 := by omega
          rw [this] at hg
          exact absurd hg (by decide)
    · rw [if_neg h2] at h
      by_cases h3 : (b &&& 0xF0 == 0xE0) = true
      · rw [if_pos h3] at h
        by_cases hg : (rest.getD 0 0 &&& 0xC0 != 0x80 ||
            rest.getD 1 0 &&& 0xC0 != 0x80) = true
        · rw [if_pos hg] at h
          exact absurd h (by simp)
        · rw [if_neg hg] at h
          simp only [Option.some.injEq, Prod.mk.injEq] at h
          obtain ⟨hcp, hlen⟩ := h
          simp only [Bool.or_eq_true, bne_iff_ne, ne_eq, not_or,
            Decidable.not_not] at hg
          obtain ⟨hg0, hg1⟩ := hg
          intro c hc
          rw [← hlen] at hc
          simp only [List.take_succ_cons] at hc
          rcases List.mem_cons.mp hc with hcb | hc2
          · rw [hcb]
            simp only [beq_iff_eq] at h3
            by_contra hb0
            have : b = 0 := by omega
            rw [this] at h3
            exact absurd h3 (by decide)
          · obtain ⟨k, hk, hgd⟩ := mem_take_getD rest 2 c hc2
            by_contra hc0
            have hc0' : c = 0 := by omega
            rw [hc0'] at hgd
            interval_cases k
            · rw [hgd] at hg0
              exact absurd hg0 (by decide)
            · rw [hgd] at hg1
              exact absurd hg1 (by decide)
      · rw [if_neg h3] at h
        by_cases h4 : (b &&& 0xF8 == 0xF0) = true
        · rw [if_pos h4] at h
          by_cases hg : (rest.getD 0 0 &&& 0xC0 != 0x80 ||
              rest.getD 1 0 &&& 0xC0 != 0x80 || rest.getD 2 0 &&& 0xC0 != 0x80) = true
          · rw [if_pos hg] at h
            exact absurd h (by simp)
          · rw [if_neg hg] at h
            simp only [Option.some.injEq, Prod.mk.injEq] at h
            obtain ⟨hcp, hlen⟩ := h
            simp only [Bool.or_eq_true, bne_iff_ne, ne_eq, not_or,
              Decidable.not_not] at hg
            obtain ⟨⟨hg0, hg1⟩, hg2⟩ := hg
            intro c hc
            rw [← hlen] at hc
            simp only [List.take_succ_cons] at hc
            rcases List.mem_cons.mp hc with hcb | hc2
            · rw [hcb]
              simp only [beq_iff_eq] at h4
              by_contra hb0
              have : b = 0 := by omega
              rw [this] at h4
              exact absurd h4 (by decide)
            · obtain ⟨k, hk, hgd⟩ := mem_take_getD rest 3 c hc2
              by_contra hc0
              have hc0' : c = 0 := by omega
              rw [hc0'] at hgd
              interval_cases k
              · rw [hgd] at hg0
                exact absurd hg0 (by decide)
              · rw [hgd] at hg1
                exact absurd hg1 (by decide)
              · rw [hgd] at hg2
                exact absurd hg2 (by decide)
        · rw [if_neg h4] at h
          exact absurd h (by simp)

/-- Every byte of a text whose code points all lie in the byte alphabet's
image is non-zero. -/
theorem textCps_pos (s : List Nat) (h : textCpsInImage s = true) :
    ∀ b ∈ s, 0 < b := by
  induction s using textCpsInImage.induct with
  | case1 =>
    intro b hb
    cases hb
  | case2 b rest hdec =>
    intro _ hb
    rw [textCpsInImage, hdec] at h
    exact absurd h (by simp)
  | case3 b rest cp len hdec ih =>
    intro c hc
    rw [textCpsInImage, hdec] at h
    simp only [Bool.and_eq_true] at h
    obtain ⟨himg, htail⟩ := h
    have hsplit := List.take_append_drop len (b :: rest)
    rw [← hsplit] at hc
    rcases List.mem_append.mp hc with hc1 | hc1
    · exact utf8Decode_bytes_pos b rest cp len hdec (cpInImage_ge cp himg) c hc1
    · exact ih htail c hc1

/-- A single pre-tokenizer node that does not prepend the optional leading
space emits chunks that concatenate exactly to its input. -/
theorem apply_single_flatten (node : PreTokenizerNode) (c : List Nat)
    (hns : node ≠ PreTokenizerNode.byteLevel true) :
    (apply_single_pre_tokenizer node c).flatten = c := by
  cases node with
  | byteLevel aps =>
    cases aps
    · simp [apply_single_pre_tokenizer]
    · exact absurd rfl hns
  | regexSplit m =>
    exact regexSplitChunks_flatten m c

/-- Running a chain of non-prefix-space pre-tokenizer nodes over any chunk
list preserves the byte concatenation of the chunks. -/
theorem pre_tokenize_flatten_aux (chain : List PreTokenizerNode) :
    NoPrefixSpace chain → ∀ chunks : List (List Nat),
      (chain.foldl
        (fun chunks node => (chunks.map (apply_single_pre_tokenizer node)).flatten)
        chunks).flatten = chunks.flatten := by
  induction chain with
  | nil =>
    intro _ chunks
    simp
  | cons node rest ih =>
    intro hns chunks
    rw [List.foldl_cons, ih (fun n hn => hns n (List.mem_cons_of_mem node hn))]
    induction chunks with
    | nil => simp
    | cons c cs ihc =>
      simp only [List.map_cons, List.flatten_cons, List.flatten_append]
      rw [apply_single_flatten node c (hns node (List.mem_cons_self node rest)), ihc]

/-- The chunks of `pre_tokenize` concatenate exactly to the input text when
no node of the chain prepends the optional leading space. -/
theorem pre_tokenize_flatten (chain : List PreTokenizerNode) (text : List Nat)
    (hns : NoPrefixSpace chain) :
    (pre_tokenize chain text).flatten = text := by
  have h := pre_tokenize_flatten_aux chain hns [text]
  simpa [pre_tokenize] using h

/-- With an empty merge table every probe of `find_merge_rule` misses. -/
theorem find_merge_rule_no_rules (tok : Tokenizer)
    (hrules : ∀ l : Int, tok.ruleRows l = []) (l r : Int) :
    find_merge_rule tok l r = none := by
  unfold find_merge_rule
  split
  · rfl
  · simp [hrules]

/-- With an empty merge table the merge loop returns its input unchanged. -/
theorem mergeLoop_no_rules (tok : Tokenizer)
    (hrules : ∀ l : Int, tok.ruleRows l = []) (ids : List Int) :
    mergeLoop tok ids = ids := by
  have hfold : ∀ l : List Nat, l.foldl (bestMergeStep tok ids) none = none := by
    intro l
    induction l with
    | nil => rfl
    | cons x xs ih =>
      rw [List.foldl_cons, show bestMergeStep tok ids none x = none from by
        unfold bestMergeStep
        rw [find_merge_rule_no_rules tok hrules]]
      exact ih
  have hfbm : find_best_merge tok ids = none := by
    unfold find_best_merge findBestMergeFold
    rw [hfold]
    rfl
  rw [mergeLoop]
  split
  · rfl
  · rw [hfbm]

/-- A hit of the specification rule lookup is carried by an item of the left
id's row. -/
theorem specRuleLookup_mem (tok : Tokenizer) (l r n p : Int)
    (h : specRuleLookup tok l r = some (n, p)) :
    ∃ it ∈ tok.ruleRows l, it.right_id = r ∧ it.new_id = n := by
  unfold specRuleLookup at h
  split at h
  · obtain ⟨it, hfind, heq⟩ := Option.map_eq_some'.mp h
    refine ⟨it, List.mem_of_find?_eq_some hfind, ?_, ?_⟩
    · have hp := List.find?_some hfind
      simpa using hp
    · simpa using congrArg Prod.fst heq
  · exact absurd h (by simp)

/-- Replacing two adjacent entries of a `Forall₂`-related pair of lists by a
merged entry (related when the parts are) keeps the relation and the
concatenation of the right-hand sides. -/
theorem forall2_merge_at (R : Int → List Nat → Prop) (i : Nat) :
    ∀ (ids : List Int) (segs : List (List Nat)) (newId : Int),
      List.Forall₂ R ids segs → i + 1 < ids.length →
      (∀ s1 s2, R (ids.getD i 0) s1 → R (ids.getD (i + 1) 0) s2 → R newId (s1 ++ s2)) →
      ∃ segs', List.Forall₂ R (ids.take i ++ newId :: ids.drop (i + 2)) segs' ∧
        segs'.flatten = segs.flatten := by
  induction i with
  | zero =>
    intro ids segs newId hf hi hnew
    cases hf with
    | nil => simp at hi
    | @cons a s idt segt h1 htail =>
      cases htail with
      | nil => simp at hi
      | @cons b s2 idt2 segt2 h2 htail2 =>
        refine ⟨(s ++ s2) :: segt2, ?_, ?_⟩
        · show List.Forall₂ R (newId :: idt2) ((s ++ s2) :: segt2)
          exact List.Forall₂.cons
            (hnew s s2 (by simpa using h1) (by simpa using h2)) htail2
        · simp [List.flatten_cons]
  | succ i ihi =>
    intro ids segs newId hf hi hnew
    cases hf with
    | nil => simp at hi
    | @cons a s idt segt h1 htail =>
      have hi' : i + 1 < idt.length := by
        simp only [List.length_cons] at hi
        omega
      have hnew' : ∀ s1 s2, R (idt.getD i 0) s1 → R (idt.getD (i + 1) 0) s2 →
          R newId (s1 ++ s2) := by
        intro s1 s2 r1 r2
        apply hnew s1 s2
        · rw [show (a :: idt).getD (i + 1) 0 = idt.getD i 0 from by simp]
          exact r1
        · rw [show (a :: idt).getD (i + 1 + 1) 0 = idt.getD (i + 1) 0 from by simp]
          exact r2
      obtain ⟨segs', hf', hflat⟩ := ihi idt segt newId htail hi' hnew'
      refine ⟨s :: segs', ?_, ?_⟩
      · show List.Forall₂ R (a :: (idt.take i ++ newId :: idt.drop (i + 2))) (s :: segs')
        exact List.Forall₂.cons h1 hf'
      · simp only [List.flatten_cons, hflat]

/-- One specification merge step preserves the representation invariant of the
merge loop, and the byte segments still concatenate to the same chunk: a
merged id is in range by the loader's closure invariant and its token text is
the alphabet image of the concatenated segments. -/
theorem specMergeStep_inv (tok : Tokenizer) (byteId : Nat → Int)
    (hwf : WellFormed tok byteId) (ids ids' : List Int) (segs : List (List Nat))
    (hstep : SpecMergeStep tok ids ids')
    (hf : List.Forall₂ (IdSegOk tok) ids segs) :
    ∃ segs', List.Forall₂ (IdSegOk tok) ids' segs' ∧ segs'.flatten = segs.flatten := by
  cases hstep with
  | step i newId p hbest =>
    obtain ⟨hi, hlook, _, _⟩ := hbest
    obtain ⟨it, hitmem, hitr, hitn⟩ := specRuleLookup_mem tok _ _ _ _ hlook
    apply forall2_merge_at (IdSegOk tok) i ids segs newId hf hi
    intro s1 s2 r1 r2
    obtain ⟨hrange1, htok1, hbytes1⟩ := r1
    obtain ⟨hrange2, htok2, hbytes2⟩ := r2
    obtain ⟨hnrange, hclos⟩ := hwf.ruleClosure (ids.getD i 0) it hitmem
    refine ⟨?_, ?_, ?_⟩
    · rw [← hitn]
      exact hnrange
    · have hcat := hclos (byteEncodeStr s1) (byteEncodeStr s2) htok1
        (by rw [hitr]; exact htok2)
      rw [← hitn, byteEncodeStr_append]
      exact hcat
    · intro b hb
      rcases List.mem_append.mp hb with hb1 | hb1
      · exact hbytes1 b hb1
      · exact hbytes2 b hb1

/-- The representation invariant is preserved along any sequence of
specification merge steps. -/
theorem specMergesTo_inv (tok : Tokenizer) (byteId : Nat → Int)
    (hwf : WellFormed tok byteId) (ids ids' : List Int)
    (h : SpecMergesTo tok ids ids') :
    ∀ segs, List.Forall₂ (IdSegOk tok) ids segs →
      ∃ segs', List.Forall₂ (IdSegOk tok) ids' segs' ∧ segs'.flatten = segs.flatten := by
  unfold SpecMergesTo at h
  induction h with
  | refl =>
    intro segs hf
    exact ⟨segs, hf, rfl⟩
  | tail hsteps hstep ih =>
    intro segs hf
    obtain ⟨segs1, hf1, hflat1⟩ := ih segs hf
    obtain ⟨segs2, hf2, hflat2⟩ := specMergeStep_inv tok byteId hwf _ _ segs1 hstep hf1
    exact ⟨segs2, hf2, hflat2.trans hflat1⟩

/-- The flatten of the singleton-chunk decomposition. -/
theorem flatten_map_singleton (l : List Nat) : (l.map (fun b => [b])).flatten = l := by
  induction l with
  | nil => rfl
  | cons b rest ih => simp [ih]

/-- A successfully encoded chunk of non-NUL `char` bytes: `encode_chunk`
returns ids that satisfy the representation invariant against byte segments
concatenating to the chunk. -/
theorem encode_chunk_ok (tok : Tokenizer) (byteId : Nat → Int)
    (hwf : WellFormed tok byteId)
    (hrows : ∀ l : Int, List.Pairwise (fun a b => a.right_id < b.right_id) (tok.ruleRows l))
    (chunk : List Nat) (hb : ∀ b ∈ chunk, 0 < b ∧ b < 256) :
    ∃ ids segs, encode_chunk tok chunk = Except.ok ids ∧
      List.Forall₂ (IdSegOk tok) ids segs ∧ segs.flatten = chunk := by
  have hinit : ∀ c : List Nat, (∀ b ∈ c, 0 < b ∧ b < 256) →
      List.Forall₂ (IdSegOk tok) (c.map byteId) (c.map (fun b => [b])) := by
    intro c
    induction c with
    | nil =>
      intro _
      exact List.Forall₂.nil
    | cons b rest ih =>
      intro hc
      obtain ⟨h0, h256⟩ := hc b (List.mem_cons_self b rest)
      refine List.Forall₂.cons ⟨hwf.byteIdRange b h256, ?_, ?_⟩
        (ih fun x hx => hc x (List.mem_cons_of_mem b hx))
      · rw [show byteEncodeStr [b] = byteVocabStr b from by simp [byteEncodeStr]]
        exact hwf.byteTok b h256
      · intro x hx
        rcases List.mem_singleton.mp hx with rfl
        exact ⟨h0, h256⟩
  by_cases hc : chunk.length = 0
  · refine ⟨[], [], ?_, List.Forall₂.nil, ?_⟩
    · unfold encode_chunk
      rw [if_pos hc]
    · rw [List.length_eq_zero.mp hc]
      rfl
  · have hfind : ∀ b ∈ chunk, tok.vocabFind (byteVocabStr b) = some (byteId b) :=
      fun b hbm => hwf.byteFind b (hb b hbm).2
    have henc : encode_chunk tok chunk = Except.ok (mergeLoop tok (chunk.map byteId)) := by
      unfold encode_chunk
      rw [if_neg hc, byteExpand_eq tok chunk byteId hfind]
      rfl
    obtain ⟨segs, hf, hflat⟩ :=
      specMergesTo_inv tok byteId hwf (chunk.map byteId) (mergeLoop tok (chunk.map byteId))
        (mergeLoop_spec tok hrows (chunk.map byteId)).1
        (chunk.map (fun b => [b])) (hinit chunk hb)
    exact ⟨mergeLoop tok (chunk.map byteId), segs, henc, hf,
      hflat.trans (flatten_map_singleton chunk)⟩

/-- The id-array walk of `bbpe_decode` on ids whose tokens all exist, are in
range and decode: the per-token outputs are appended in order. -/
theorem decodeFold_ok (tok : Tokenizer) (ids : List Int) (outs : List (List Nat))
    (hf : List.Forall₂ (fun id out =>
      ¬(id < 0 ∨ tok.vocabSize ≤ id) ∧
      ∃ s, tok.idToToken id = some s ∧ decodeTokenStr s = some out) ids outs) :
    ∀ acc : List Nat,
      ids.foldlM (fun acc id =>
        if id < 0 ∨ tok.vocabSize ≤ id then Except.error Status.tokenNotFound
        else
          match tok.idToToken id with
          | none => Except.error Status.tokenNotFound
          | some s =>
            match decodeTokenStr s with
            | none => Except.error Status.invalidInput
            | some bytes => Except.ok (acc ++ bytes)) acc
        = Except.ok (acc ++ outs.flatten) := by
  induction hf with
  | nil =>
    intro acc
    simp [List.foldlM_nil]
    rfl
  | @cons id out idt outt h1 htail ih =>
    intro acc
    obtain ⟨hrange, s, hs, hd⟩ := h1
    rw [List.foldlM_cons]
    have hstep : (if id < 0 ∨ tok.vocabSize ≤ id then Except.error Status.tokenNotFound
        else
          match tok.idToToken id with
          | none => Except.error Status.tokenNotFound
          | some s =>
            match decodeTokenStr s with
            | none => Except.error Status.invalidInput
            | some bytes => Except.ok (acc ++ bytes)) = Except.ok (acc ++ out) := by
      rw [if_neg hrange, hs]
      dsimp only
      rw [hd]
    rw [hstep]
    rw [show (Except.ok (acc ++ out) >>= fun acc' =>
        idt.foldlM (fun acc id =>
          if id < 0 ∨ tok.vocabSize ≤ id then Except.error Status.tokenNotFound
          else
            match tok.idToToken id with
            | none => Except.error Status.tokenNotFound
            | some s =>
              match decodeTokenStr s with
              | none => Except.error Status.invalidInput
              | some bytes => Except.ok (acc ++ bytes)) acc')
        = idt.foldlM (fun acc id =>
          if id < 0 ∨ tok.vocabSize ≤ id then Except.error Status.tokenNotFound
          else
            match tok.idToToken id with
            | none => Except.error Status.tokenNotFound
            | some s =>
              match decodeTokenStr s with
              | none => Except.error Status.invalidInput
              | some bytes => Except.ok (acc ++ bytes)) (acc ++ out) from rfl]
    rw [ih (acc ++ out)]
    simp [List.flatten_cons, List.append_assoc]

/-- `bbpe_decode` on a non-empty id array with decodable in-range tokens
returns the concatenation of the per-token outputs. -/
theorem bbpeDecodeCore_ok (tok : Tokenizer) (ids : List Int) (outs : List (List Nat))
    (hne : ids ≠ [])
    (hf : List.Forall₂ (fun id out =>
      ¬(id < 0 ∨ tok.vocabSize ≤ id) ∧
      ∃ s, tok.idToToken id = some s ∧ decodeTokenStr s = some out) ids outs) :
    bbpeDecodeCore tok ids = Except.ok outs.flatten := by
  unfold bbpeDecodeCore
  rw [if_neg (fun hemp => hne (List.isEmpty_iff.mp hemp))]
  have h := decodeFold_ok tok ids outs hf []
  simpa using h

/-- `bbpe_decode` inverts the representation invariant of the merge loop: ids
related to byte segments decode to the concatenated segments. -/
theorem bbpeDecodeCore_segs (tok : Tokenizer) (ids : List Int)
    (segs : List (List Nat)) (hne : ids ≠ [])
    (hf : List.Forall₂ (IdSegOk tok) ids segs) :
    bbpeDecodeCore tok ids = Except.ok segs.flatten := by
  apply bbpeDecodeCore_ok tok ids segs hne
  apply hf.imp
  intro id seg h
  obtain ⟨⟨hge, hlt⟩, htok, hbytes⟩ := h
  exact ⟨by omega, byteEncodeStr seg, htok, decodeTokenStr_byteEncodeStr seg hbytes⟩

/-- `Forall₂` respects appending both lists. -/
theorem forall2_append (R : Int → List Nat → Prop) (l1 : List Int)
    (l2 : List (List Nat)) (l3 : List Int) (l4 : List (List Nat))
    (h1 : List.Forall₂ R l1 l2) (h2 : List.Forall₂ R l3 l4) :
    List.Forall₂ R (l1 ++ l3) (l2 ++ l4) := by
  induction h1 with
  | nil => exact h2
  | cons ha htail ih => exact List.Forall₂.cons ha ih

/-- The chunk walk of the normal-segment branch of `bbpe_encode`: when every
chunk encodes with the representation invariant, the walk succeeds and the
id lists are appended in order. -/
theorem encode_chunks_fold (tok : Tokenizer) (chunks : List (List Nat))
    (hc : ∀ c ∈ chunks, ∃ ids segs, encode_chunk tok c = Except.ok ids ∧
      List.Forall₂ (IdSegOk tok) ids segs ∧ segs.flatten = c) :
    ∀ acc : List Int, ∃ ids segs,
      chunks.foldlM
        (fun acc2 chunk => (encode_chunk tok chunk).map (fun l => acc2 ++ l)) acc
        = Except.ok (acc ++ ids) ∧
      List.Forall₂ (IdSegOk tok) ids segs ∧ segs.flatten = chunks.flatten := by
  induction chunks with
  | nil =>
    intro acc
    exact ⟨[], [], by simp [List.foldlM_nil]; rfl, List.Forall₂.nil, rfl⟩
  | cons c cs ih =>
    intro acc
    obtain ⟨ids1, segs1, he1, hf1, hfl1⟩ := hc c (List.mem_cons_self c cs)
    obtain ⟨ids2, segs2, he2, hf2, hfl2⟩ :=
      ih (fun x hx => hc x (List.mem_cons_of_mem c hx)) (acc ++ ids1)
    refine ⟨ids1 ++ ids2, segs1 ++ segs2, ?_, ?_, ?_⟩
    · rw [List.foldlM_cons]
      have hstep : (encode_chunk tok c).map (fun l => acc ++ l) = Except.ok (acc ++ ids1) := by
        rw [he1]
        rfl
      rw [hstep]
      rw [show (Except.ok (acc ++ ids1) >>= fun acc2 =>
          cs.foldlM (fun acc2 chunk => (encode_chunk tok chunk).map (fun l => acc2 ++ l)) acc2)
          = cs.foldlM
            (fun acc2 chunk => (encode_chunk tok chunk).map (fun l => acc2 ++ l))
            (acc ++ ids1) from rfl]
      rw [he2, List.append_assoc]
    · exact forall2_append (IdSegOk tok) ids1 segs1 ids2 segs2 hf1 hf2
    · simp only [List.flatten_append, hfl1, hfl2, List.flatten_cons]

/-- `bbpe_encode` on a non-empty text none of whose suffixes carries a
special-token match: the splitter yields the whole text as one normal
segment, and the result is the chunk walk over its pre-tokenization. -/
theorem bbpeEncodeCore_normal (tok : Tokenizer) (text : List Nat) (hne : text ≠ [])
    (hnosp : ∀ s, s.IsSuffix text → findBestSpecial tok.specials s = none) :
    bbpeEncodeCore tok text =
      (pre_tokenize tok.preToks text).foldlM
        (fun acc2 chunk => (encode_chunk tok chunk).map (fun l => acc2 ++ l)) [] := by
  unfold bbpeEncodeCore extract_special_tokens
  rw [extractSpecialLoop_nomatch tok.specials [] text hnosp]
  unfold flushNormal
  simp only [List.nil_append]
  rw [if_neg hne]
  rw [List.foldlM_cons]
  simp only [List.foldlM_nil]
  exact bind_pure _

/-- The decoder walk stops at the terminator and emits nothing for the empty
string. -/
theorem decodeTokenStr_nil : decodeTokenStr [] = some [] := by
  rw [decodeTokenStr]

/-- One step of the all-code-points-in-image test, for concrete evaluation. -/
theorem textCpsInImage_cons (b : Nat) (rest : List Nat) (cp len : Nat)
    (h : utf8Decode (b :: rest) = some (cp, len)) :
    textCpsInImage (b :: rest) =
      (cpInImage cp && textCpsInImage ((b :: rest).drop len)) := by
  rw [textCpsInImage, h]

/-- The empty text passes the all-code-points-in-image test. -/
theorem textCpsInImage_nil : textCpsInImage [] = true := by
  rw [textCpsInImage]

/-- The precomputed alphabet strings of distinct bytes are distinct (their
code points decode back distinct). -/
theorem byteVocabStr_inj (b1 b2 : Nat) (h1 : b1 < 256) (h2 : b2 < 256)
    (h : byteVocabStr b1 = byteVocabStr b2) : b1 = b2 := by
  apply byteToUnicode_inj b1 b2 h1 h2
  have hp1 : 0 < byteToUnicode b1 := by
    have := byteToUnicode_ge b1
    omega
  have hp2 : 0 < byteToUnicode b2 := by
    have := byteToUnicode_ge b2
    omega
  have hl1 : byteToUnicode b1 < 0x800 := by
    have := byteToUnicode_lt b1 h1
    omega
  have hl2 : byteToUnicode b2 < 0x800 := by
    have := byteToUnicode_lt b2 h2
    omega
  have d1 := (utf8_roundtrip (byteToUnicode b1) hp1 hl1 []).1
  have d2 := (utf8_roundtrip (byteToUnicode b2) hp2 hl2 []).1
  unfold byteVocabStr at h
  rw [h] at d1
  rw [d2] at d1
  exact (by simpa using congrArg (fun o => (Option.map Prod.fst o).getD 0) d1 : byteToUnicode b2 = byteToUnicode b1).symm

/-- In the all-byte-singletons vocabulary the alphabet string of byte `b`
resolves to id `b`. -/
theorem vocab256_find (b : Nat) (hb : b < 256) :
    vocabFindOf vocab256 (byteVocabStr b) = some (Int.ofNat b) := by
  unfold vocabFindOf vocab256
  rw [find?_unique_mem ((List.range 256).map (fun x => (byteVocabStr x, Int.ofNat x)))
    (fun e => e.1 == byteVocabStr b) (byteVocabStr b, Int.ofNat b)
    (List.mem_map_of_mem _ (List.mem_range.mpr hb)) (by simp)
    ?_]
  · rfl
  · intro y hy hpy
    obtain ⟨b', hb', hyeq⟩ := List.mem_map.mp hy
    rw [← hyeq] at hpy ⊢
    have hkey : byteVocabStr b' = byteVocabStr b := by simpa using hpy
    rw [byteVocabStr_inj b' b (List.mem_range.mp hb') hb hkey]

/-- In the all-byte-singletons vocabulary id `b` resolves back to the
alphabet string of byte `b`. -/
theorem vocab256_idToToken (b : Nat) (hb : b < 256) :
    idToTokenOf vocab256 256 (Int.ofNat b) = some (byteVocabStr b) := by
  unfold idToTokenOf
  rw [if_pos ⟨Int.ofNat_nonneg b, by rw [Int.ofNat_eq_coe]; exact_mod_cast hb⟩]
  unfold vocab256
  rw [find?_unique_mem ((List.range 256).map (fun x => (byteVocabStr x, Int.ofNat x)))
    (fun e => e.2 == Int.ofNat b) (byteVocabStr b, Int.ofNat b)
    (List.mem_map_of_mem _ (List.mem_range.mpr hb)) (by simp)
    ?_]
  · rfl
  · intro y hy hpy
    obtain ⟨b', hb', hyeq⟩ := List.mem_map.mp hy
    rw [← hyeq] at hpy ⊢
    have hid : b' = b := by
      have h2 : Int.ofNat b' = Int.ofNat b := by simpa using hpy
      exact Int.ofNat.inj h2
    rw [hid]

set_option maxRecDepth 4000 in
/-- The all-byte-singletons tokenizer is well-formed over the identity id
assignment. -/
theorem tok256_wf : WellFormed tok256 Int.ofNat := by
  refine ⟨?_, ?_, ?_, ?_, ?_⟩
  · intro b hb
    exact vocab256_find b hb
  · intro b hb
    refine ⟨Int.ofNat_nonneg b, ?_⟩
    show Int.ofNat b < (256 : Int)
    rw [Int.ofNat_eq_coe]
    exact_mod_cast hb
  · intro b hb
    exact vocab256_idToToken b hb
  · intro l it hit
    exact absurd hit (List.not_mem_nil it)
  · intro node hn
    exact absurd hn (List.not_mem_nil node)

set_option maxRecDepth 4000 in
/-- The prefix-space variant is equally well-formed (it differs only in the
pre-tokenizer chain, whose single node carries no regex). -/
theorem tokPS_wf : WellFormed tokPS Int.ofNat := by
  refine ⟨?_, ?_, ?_, ?_, ?_⟩
  · intro b hb
    exact vocab256_find b hb
  · intro b hb
    refine ⟨Int.ofNat_nonneg b, ?_⟩
    show Int.ofNat b < (256 : Int)
    rw [Int.ofNat_eq_coe]
    exact_mod_cast hb
  · intro b hb
    exact vocab256_idToToken b hb
  · intro l it hit
    exact absurd hit (List.not_mem_nil it)
  · intro node hn m hm
    rcases List.mem_singleton.mp hn with rfl
    cases hm

/-- C3 (amended): decoding the result of encoding returns the text unchanged
for a well-formed tokenizer (byte-singleton vocabulary entries, loader's
closure invariant, sorted merge rows) provided additionally that the text is
non-empty, that no suffix of the text has a special-token match, that the
pre-tokenizer chain does not prepend the optional leading space, and that the
text's bytes are `char` values whose code points all lie in the byte
alphabet's image.  The original claim fails without the extra provisos: see
the counterexample. -/
theorem C3_roundtrip_inverse (tok : Tokenizer) (byteId : Nat → Int) (text : List Nat)
    (hwf : WellFormed tok byteId)
    (hrows : ∀ l : Int, List.Pairwise (fun a b => a.right_id < b.right_id) (tok.ruleRows l))
    (hns : NoPrefixSpace tok.preToks)
    (hne : text ≠ [])
    (hnosp : ∀ s, s.IsSuffix text → findBestSpecial tok.specials s = none)
    (hlt : ∀ b ∈ text, b < 256)
    (himg : textCpsInImage text = true) :
    (bbpeEncodeCore tok text).bind (fun ids => bbpeDecodeCore tok ids)
      = Except.ok text := by
  have hpos : ∀ b ∈ text, 0 < b := textCps_pos text himg
  have hflat : (pre_tokenize tok.preToks text).flatten = text :=
    pre_tokenize_flatten tok.preToks text hns
  have hcchunks : ∀ c ∈ pre_tokenize tok.preToks text,
      ∃ ids segs, encode_chunk tok c = Except.ok ids ∧
        List.Forall₂ (IdSegOk tok) ids segs ∧ segs.flatten = c := by
    intro c hcmem
    apply encode_chunk_ok tok byteId hwf hrows c
    intro b hbmem
    have hbtext : b ∈ text := by
      rw [← hflat]
      exact List.mem_flatten.mpr ⟨c, hcmem, hbmem⟩
    exact ⟨hpos b hbtext, hlt b hbtext⟩
  obtain ⟨ids, segs, henc, hf, hsflat⟩ :=
    encode_chunks_fold tok (pre_tokenize tok.preToks text) hcchunks []
  have hcore : bbpeEncodeCore tok text = Except.ok ids := by
    rw [bbpeEncodeCore_normal tok text hne hnosp, henc, List.nil_append]
  have htext : segs.flatten = text := hsflat.trans hflat
  have hidne : ids ≠ [] := by
    intro hnil
    rw [hnil] at hf
    cases hf
    exact hne htext.symm
  rw [hcore]
  rw [show (Except.ok ids).bind (fun ids => bbpeDecodeCore tok ids)
      = bbpeDecodeCore tok ids from rfl]
  rw [bbpeDecodeCore_segs tok ids segs hidne hf, htext]

set_option maxRecDepth 4000 in
/-- Witness for C3 at the byte-singleton tokenizer on the text "hi". -/
theorem C3_roundtrip_inverse_witness :
    (bbpeEncodeCore tok256 [104, 105]).bind (fun ids => bbpeDecodeCore tok256 ids)
      = Except.ok [104, 105] := by
  apply C3_roundtrip_inverse tok256 Int.ofNat [104, 105] tok256_wf
  · intro l
    exact List.Pairwise.nil
  · intro node hn
    exact absurd hn (List.not_mem_nil node)
  · decide
  · intro s hs
    rfl
  · decide
  · rw [textCpsInImage_cons 104 [105] 104 1 (by decide)]
    rw [show (104 :: [105]).drop 1 = [105] from rfl]
    rw [textCpsInImage_cons 105 [] 105 1 (by decide)]
    rw [show (105 :: ([] : List Nat)).drop 1 = ([] : List Nat) from rfl]
    rw [textCpsInImage_nil]
    decide

set_option maxRecDepth 4000 in
/-- Counterexample for C3 as stated: the empty text (no special tokens, no
out-of-image code points) encodes to the empty id array whose decode is
`BBPE_ERR_INVALID_INPUT` rather than the text; and with a `ByteLevel`
`add_prefix_space` pre-tokenizer the text "A" comes back as " A". -/
theorem C3_roundtrip_counterexample :
    ((bbpeEncodeCore tok256 []).bind (fun ids => bbpeDecodeCore tok256 ids)
      = Except.error Status.invalidInput) ∧
    ((bbpeEncodeCore tokPS [65]).bind (fun ids => bbpeDecodeCore tokPS ids)
      = Except.ok [32, 65]) ∧
    [32, 65] ≠ [65] := by
  refine ⟨?_, ?_, by decide⟩
  · have he : bbpeEncodeCore tok256 [] = Except.ok [] := by
      unfold bbpeEncodeCore extract_special_tokens
      rw [extractSpecialLoop]
      rfl
    rw [he]
    rfl
  · have henc1 : encode_chunk tokPS [32, 65] = Except.ok [32, 65] := by
      unfold encode_chunk
      rw [if_neg (by decide)]
      rw [byteExpand_eq tokPS [32, 65] Int.ofNat (by
        intro b hb
        rcases List.mem_cons.mp hb with rfl | hb2
        · exact vocab256_find 32 (by omega)
        · rcases List.mem_singleton.mp hb2 with rfl
          exact vocab256_find 65 (by omega))]
      rw [show (Except.ok ([32, 65].map Int.ofNat)).map (mergeLoop tokPS)
          = Except.ok (mergeLoop tokPS ([32, 65].map Int.ofNat)) from rfl]
      rw [mergeLoop_no_rules tokPS (fun l => rfl)]
      rfl
    have henc : bbpeEncodeCore tokPS [65] = Except.ok [32, 65] := by
      rw [bbpeEncodeCore_normal tokPS [65] (by decide) (fun s hs => rfl)]
      rw [show pre_tokenize tokPS.preToks [65] = [[32, 65]] from rfl]
      rw [List.foldlM_cons]
      simp only [henc1]
      rfl
    have hf : List.Forall₂ (IdSegOk tokPS) [Int.ofNat 32, Int.ofNat 65] [[32], [65]] := by
      refine List.Forall₂.cons ⟨⟨Int.ofNat_nonneg 32, by decide⟩, ?_, by decide⟩
        (List.Forall₂.cons ⟨⟨Int.ofNat_nonneg 65, by decide⟩, ?_, by decide⟩
          List.Forall₂.nil)
      · rw [show byteEncodeStr [32] = byteVocabStr 32 from by simp [byteEncodeStr]]
        exact vocab256_idToToken 32 (by omega)
      · rw [show byteEncodeStr [65] = byteVocabStr 65 from by simp [byteEncodeStr]]
        exact vocab256_idToToken 65 (by omega)
    have hdec : bbpeDecodeCore tokPS [32, 65] = Except.ok [32, 65] := by
      have h := bbpeDecodeCore_segs tokPS [Int.ofNat 32, Int.ofNat 65] [[32], [65]]
        (by decide) hf
      simpa using h
    rw [henc]
    rw [show (Except.ok ([32, 65] : List Int)).bind (fun ids => bbpeDecodeCore tokPS ids)
        = bbpeDecodeCore tokPS [32, 65] from rfl]
    exact hdec

/-- The decoder copies the two-byte UTF-8 form of code point 256 verbatim:
the inverse-table slot of 256 holds byte 0 (the byte the alphabet maps to
256), which fails the decoder's non-zero test. -/
theorem decodeTokenStr_cp256 : decodeTokenStr (196 :: [128]) = some [196, 128] := by
  rw [decodeTokenStr]
  dsimp only
  rw [if_neg (by decide : ¬(196 = 0))]
  rw [show utf8Decode (196 :: [128]) = some (256, 2) from by decide]
  dsimp only
  rw [if_neg (by decide)]
  rw [show (196 :: [128]).drop 2 = ([] : List Nat) from rfl]
  rw [decodeTokenStr_nil]
  rfl

/-- Pointwise construction of `Forall₂` between two maps over one list. -/
theorem forall2_map_map {α : Type} (R : Int → List Nat → Prop) (f : α → Int)
    (g : α → List Nat) (l : List α)
    (h : ∀ x ∈ l, R (f x) (g x)) : List.Forall₂ R (l.map f) (l.map g) := by
  induction l with
  | nil => exact List.Forall₂.nil
  | cons a t ih =>
    exact List.Forall₂.cons (h a (List.mem_cons_self a t))
      (ih fun x hx => h x (List.mem_cons_of_mem a hx))

set_option maxRecDepth 4000 in
/-- C1: the all-bytes round trip fails in the code.  Over the byte-singleton
vocabulary (no prefix space, no specials), the text of all 256 byte values
encodes to the 256 byte ids, but decoding them emits the two raw UTF-8 bytes
196, 128 for byte 0's token instead of byte 0: `unicode_to_byte[256]` is 0 and
the decoder's `!= 0` test cannot distinguish the legitimate inverse byte 0
from an empty slot, so the output differs from the original text. -/
theorem C1_all_bytes_roundtrip_bug :
    bbpeEncodeCore tok256 (List.range 256)
      = Except.ok ((List.range 256).map Int.ofNat) ∧
    bbpeDecodeCore tok256 ((List.range 256).map Int.ofNat)
      = Except.ok (196 :: 128 :: (List.range 256).drop 1) ∧
    196 :: 128 :: (List.range 256).drop 1 ≠ List.range 256 := by
  have henc : bbpeEncodeCore tok256 (List.range 256)
      = Except.ok ((List.range 256).map Int.ofNat) := by
    rw [bbpeEncodeCore_normal tok256 (List.range 256) (by decide) (fun s hs => rfl)]
    rw [show pre_tokenize tok256.preToks (List.range 256) = [List.range 256] from rfl]
    rw [List.foldlM_cons]
    have henc1 : encode_chunk tok256 (List.range 256)
        = Except.ok ((List.range 256).map Int.ofNat) := by
      unfold encode_chunk
      rw [if_neg (by decide)]
      rw [byteExpand_eq tok256 (List.range 256) Int.ofNat
        (fun b hb => vocab256_find b (List.mem_range.mp hb))]
      rw [show (Except.ok ((List.range 256).map Int.ofNat)).map (mergeLoop tok256)
          = Except.ok (mergeLoop tok256 ((List.range 256).map Int.ofNat)) from rfl]
      rw [mergeLoop_no_rules tok256 (fun l => rfl)]
    simp only [henc1]
    rfl
  have houts : List.Forall₂ (fun id out =>
      ¬(id < 0 ∨ tok256.vocabSize ≤ id) ∧
      ∃ s, tok256.idToToken id = some s ∧ decodeTokenStr s = some out)
      ((List.range 256).map Int.ofNat)
      ((List.range 256).map (fun b => if b = 0 then [196, 128] else [b])) := by
    apply forall2_map_map
    intro b hb
    have hb256 : b < 256 := List.mem_range.mp hb
    refine ⟨not_or.mpr ⟨?_, ?_⟩, byteVocabStr b, vocab256_idToToken b hb256, ?_⟩
    · exact Int.not_lt.mpr (Int.ofNat_nonneg b)
    · show ¬((256 : Int) ≤ Int.ofNat b)
      rw [Int.not_le, Int.ofNat_eq_coe]
      exact_mod_cast hb256
    · by_cases hb0 : b = 0
      · rw [hb0, if_pos rfl]
        rw [show byteVocabStr 0 = 196 :: [128] from by decide]
        exact decodeTokenStr_cp256
      · rw [if_neg hb0]
        rw [show byteVocabStr b = byteEncodeStr [b] from by simp [byteEncodeStr]]
        exact decodeTokenStr_byteEncodeStr [b] (by
          intro x hx
          rcases List.mem_singleton.mp hx with rfl
          exact ⟨Nat.pos_of_ne_zero hb0, hb256⟩)
  have hdec := bbpeDecodeCore_ok tok256 ((List.range 256).map Int.ofNat)
    ((List.range 256).map (fun b => if b = 0 then [196, 128] else [b]))
    (by decide) houts
  have hflat : ((List.range 256).map (fun b => if b = 0 then [196, 128] else [b])).flatten
      = 196 :: 128 :: (List.range 256).drop 1 := by decide
  exact ⟨henc, by rw [hdec, hflat], by decide⟩

end BBPE
